import Mathlib

/-!
Verification development for the yakui widget-tree reconciler (`Dom`) and
input-routing state machine (`InputState`).

The embedding follows `crates/yakui-core/src/dom/mod.rs` and
`crates/yakui-core/src/input/input_state.rs`.

Modelling conventions:
* Widget ids (`WidgetId`, a thunderdome `Index` = arena slot + generation) are
  modelled as `Nat`s drawn from a monotone counter `nextId`.  A generation-checked
  index is never reused after removal and never aliases a live node, which is
  exactly the behaviour of fresh naturals; lookups of removed ids fail in both.
* The arena is an association list from id to node.  `getNode`/`setNode` act on
  the first matching entry, `removeNode` deletes the key; the reconciler keeps
  keys distinct.
* A concrete widget type (`TypeId::of::<T>`) is a `Nat` code stored in the node;
  a widget's internal state is a `Nat` and its `update` routine (which consumes
  the frame's props) is an arbitrary function `Nat → Nat` supplied at the call.
* Rust panics (`unwrap`, failed `assert!`) are modelled as `none`; every
  operation that can panic returns an `Option`.
* The two worklist loops (`trim_children`, `remove_recursive`) are written with
  an explicit fuel argument chosen at each call site strictly larger than any
  possible number of iterations (each successful iteration removes one arena
  entry, resp. consumes one queue slot), so fuel exhaustion is unreachable and
  the functions compute the loops exactly while remaining structurally
  recursive.
-/

namespace Yakui

/-- A node in the DOM, after `DomNode` in `dom/mod.rs`: a widget (type tag and
internal state), an optional parent, the ordered children and the
reconciliation cursor `next_child`. -/
structure DomNode where
  ty : Nat
  state : Nat
  parent : Option Nat
  children : List Nat
  nextChild : Nat
deriving Repr, DecidableEq

/-- The arena of nodes (`thunderdome::Arena<DomNode>`), as an association list. -/
abbrev Arena := List (Nat × DomNode)

/-- Lookup of a node by id (`Arena::get`). -/
def getNode : Arena → Nat → Option DomNode
  | [], _ => none
  | (j, n) :: rest, i => if j = i then some n else getNode rest i

/-- Replace the node stored at an id that is already present (`Arena::get_mut`
followed by assignment).  Ids that are absent are left untouched. -/
def setNode : Arena → Nat → DomNode → Arena
  | [], _, _ => []
  | (j, m) :: rest, i, n => if j = i then (j, n) :: rest else (j, m) :: setNode rest i n

/-- Delete an id from the arena (`Arena::remove`). -/
def removeNode : Arena → Nat → Arena
  | [], _ => []
  | (j, m) :: rest, i => if j = i then removeNode rest i else (j, m) :: removeNode rest i

/-- Insert a fresh id (`Arena::insert`; the id is fresh by construction). -/
def insertNode (a : Arena) (i : Nat) (n : DomNode) : Arena := (i, n) :: a

/-- The list of ids present in the arena. -/
def keysOf (a : Arena) : List Nat := a.map (fun p => p.1)

/-- The DOM (`Dom` / `DomInner`): the arena, the traversal stack (head = top),
the removed-nodes list of the current frame, the root id and the fresh-id
counter. -/
structure Dom where
  nodes : Arena
  stack : List Nat
  removedNodes : List Nat
  root : Nat
  nextId : Nat
deriving Repr, DecidableEq

/-- A fresh DOM (`Dom::new`): only the root node, which has no parent. -/
def domNew : Dom :=
  { nodes := [(0, { ty := 0, state := 0, parent := none, children := [], nextChild := 0 })]
    stack := []
    removedNodes := []
    root := 0
    nextId := 1 }

/-- `Dom::current`: the top of the traversal stack, or the root. -/
def domCurrent (d : Dom) : Nat := d.stack.headD d.root

/-- `Dom::start`: reset the root's reconciliation cursor; panics (`unwrap`) if
the root is missing from the arena. -/
def domStart (d : Dom) : Option Dom :=
  match getNode d.nodes d.root with
  | none => none
  | some r => some { d with nodes := setNode d.nodes d.root { r with nextChild := 0 } }

/-- The body of the worklist loop of `trim_children`: pop an id, append it to
the removed list, remove it from the arena (panicking when it is absent:
`nodes.remove(child_id.index()).unwrap()`), and enqueue its children.  Fuel is
strictly larger than the arena size at every call, so the `0, _ :: _` case is
unreachable. -/
def trimLoopF : Nat → Arena → List Nat → List Nat → Option (Arena × List Nat)
  | _, nodes, removed, [] => some (nodes, removed)
  | 0, _, _, _ :: _ => none
  | fuel + 1, nodes, removed, cid :: queue =>
    match getNode nodes cid with
    | none => none
    | some child =>
      trimLoopF fuel (removeNode nodes cid) (removed ++ [cid]) (queue ++ child.children)

/-- `trim_children`: drop the children of `id` past its cursor.  The stale
slice is appended to the removed list in bulk, the children list is truncated,
and then the loop removes the slice and all ids reachable from it, appending
each dequeued id to the removed list (again, for the slice itself).  Panics if
`id` is absent. -/
def trimChildren (nodes : Arena) (removed : List Nat) (id : Nat) :
    Option (Arena × List Nat) :=
  match getNode nodes id with
  | none => none
  | some node =>
    if node.nextChild < node.children.length then
      let toDrop := node.children.drop node.nextChild
      let nodes₁ := setNode nodes id { node with children := node.children.take node.nextChild }
      trimLoopF (nodes₁.length + 1) nodes₁ (removed ++ toDrop) toDrop
    else
      some (nodes, removed)

/-- Fuel bound for `remove_recursive`: every iteration either consumes a queue
slot (missing node) or removes an arena entry while enqueuing its children, so
the total entry weight plus the queue length strictly decreases. -/
def arenaWeight : Arena → Nat
  | [] => 0
  | (_, n) :: rest => n.children.length + 1 + arenaWeight rest

/-- The worklist loop of `remove_recursive`: pop an id, record it as removed
(before the arena lookup, as in the source), skip it if it is already gone,
otherwise delete it and enqueue its children.  Fuel exhaustion is unreachable
at the call site. -/
def removeLoopF : Nat → Arena → List Nat → List Nat → Arena × List Nat
  | _, nodes, removed, [] => (nodes, removed)
  | 0, nodes, removed, _ :: _ => (nodes, removed)
  | fuel + 1, nodes, removed, cid :: queue =>
    match getNode nodes cid with
    | none => removeLoopF fuel nodes (removed ++ [cid]) queue
    | some node =>
      removeLoopF fuel (removeNode nodes cid) (removed ++ [cid]) (queue ++ node.children)

/-- `remove_recursive`: destroy a widget and all of its descendants, recording
every dequeued id. -/
def removeRecursive (nodes : Arena) (removed : List Nat) (id : Nat) :
    Arena × List Nat :=
  removeLoopF (arenaWeight nodes + 2) nodes removed [id]

/-- `Dom::finish`: clear the removed-nodes list, then trim the root's stale
children. -/
def domFinish (d : Dom) : Option Dom :=
  match trimChildren d.nodes [] d.root with
  | none => none
  | some (nodes, removed) =>
    some { d with nodes := nodes, removedNodes := removed }

/-- `new_widget::<T>`: insert a fresh node (default instance `T::new()`, state
`0`) under `parent_id`, overwrite the parent's child slot at the cursor or push
past the end, and advance the cursor.  Panics if the parent is absent. -/
def newWidget (nodes : Arena) (freshId : Nat) (parentId : Nat) (ty : Nat) :
    Option (Arena × Nat) :=
  match getNode nodes parentId with
  | none => none
  | some parent =>
    let nodes₁ := insertNode nodes freshId
      { ty := ty, state := 0, parent := some parentId, children := [], nextChild := 0 }
    let children₁ :=
      if parent.nextChild < parent.children.length then
        parent.children.set parent.nextChild freshId
      else
        parent.children ++ [freshId]
    some (setNode nodes₁ parentId
      { parent with children := children₁, nextChild := parent.nextChild + 1 }, freshId)

/-- `Dom::begin_widget::<T>` with props baked into the update function `upd`:
resolve the parent from the traversal stack, reconcile the child slot at the
parent's cursor (reuse on type match, destroy-and-recreate on mismatch, create
when the slot is empty), push the resolved id, and run the widget's `update`
(`T::new()` gives state `0` for fresh nodes).  The `unwrap` on the existing
child (line 211 of `dom/mod.rs`) panics when the slot holds a dangling id. -/
def beginWidget (d : Dom) (ty : Nat) (upd : Nat → Nat) : Option (Dom × Nat) :=
  let parentId := domCurrent d
  match getNode d.nodes parentId with
  | none => none
  | some parent =>
    match parent.children.get? parent.nextChild with
    | some cid =>
      let nodes₀ := setNode d.nodes parentId { parent with nextChild := parent.nextChild + 1 }
      match getNode nodes₀ cid with
      | none => none
      | some node =>
        if node.ty = ty then
          some ({ d with
                    nodes := setNode nodes₀ cid
                      { node with nextChild := 0, state := upd node.state }
                    stack := cid :: d.stack }, cid)
        else
          let rr := removeRecursive nodes₀ d.removedNodes cid
          match newWidget rr.1 d.nextId parentId ty with
          | none => none
          | some (nodes₂, id) =>
            match getNode nodes₂ id with
            | none => none
            | some fresh =>
              some ({ d with
                        nodes := setNode nodes₂ id { fresh with state := upd fresh.state }
                        stack := id :: d.stack
                        removedNodes := rr.2
                        nextId := d.nextId + 1 }, id)
    | none =>
      match newWidget d.nodes d.nextId parentId ty with
      | none => none
      | some (nodes₂, id) =>
        match getNode nodes₂ id with
        | none => none
        | some fresh =>
          some ({ d with
                    nodes := setNode nodes₂ id { fresh with state := upd fresh.state }
                    stack := id :: d.stack
                    nextId := d.nextId + 1 }, id)

/-- `Dom::end_widget`: pop the traversal stack (panicking when it is empty or
when the popped id is not the expected one), then trim the widget's stale
children. -/
def endWidget (d : Dom) (id : Nat) : Option Dom :=
  match d.stack with
  | [] => none
  | top :: rest =>
    if top = id then
      match trimChildren d.nodes d.removedNodes id with
      | none => none
      | some (nodes, removed) =>
        some { d with nodes := nodes, stack := rest, removedNodes := removed }
    else none

/-! ### Frame scripts

Application code declares the widget tree positionally each frame via nested
`begin_widget`/`end_widget` calls, passing each `end_widget` the id returned by
the matching `begin_widget` (`Response::id`), which is the id on top of the
stack.  A frame is modelled as a sequence of such instructions. -/

/-- One declaration step of the build pass. -/
inductive Instr where
  | begin (ty : Nat) (upd : Nat → Nat)
  | stop

/-- Run one instruction: `begin` starts a widget, `stop` ends the widget whose
id the matching `begin_widget` returned (the top of the stack). -/
def instrStep (d : Dom) : Instr → Option Dom
  | .begin ty upd => (beginWidget d ty upd).map (fun p => p.1)
  | .stop =>
    match d.stack with
    | [] => none
    | top :: _ => endWidget d top

/-- Run a sequence of declaration steps. -/
def exec (d : Dom) : List Instr → Option Dom
  | [] => some d
  | i :: is =>
    match instrStep d i with
    | none => none
    | some d₁ => exec d₁ is

/-- A declared widget tree: first-child / next-sibling encoding of the
positional declaration list of one frame. -/
inductive Script where
  | nil
  | node (ty : Nat) (upd : Nat → Nat) (children : Script) (rest : Script)

/-- The number of top-level widgets declared by a script. -/
def scriptLength : Script → Nat
  | .nil => 0
  | .node _ _ _ rest => scriptLength rest + 1

/-- Flatten a script into its `begin`/`end` instruction sequence. -/
def flattenS : Script → List Instr
  | .nil => []
  | .node ty upd children rest =>
    Instr.begin ty upd :: flattenS children ++ Instr.stop :: flattenS rest

/-- One full frame: `Dom::start`, the declaration pass, `Dom::finish`. -/
def frame (d : Dom) (s : Script) : Option Dom :=
  match domStart d with
  | none => none
  | some d₀ =>
    match exec d₀ (flattenS s) with
    | none => none
    | some d₁ => domFinish d₁

/-! ### Basic arena lemmas -/

/-- Ids reachable from a seed list by repeatedly following the children of
nodes present in the arena.  This is the set of ids the trim worklist visits. -/
inductive Reach (a : Arena) (seeds : List Nat) : Nat → Prop
  | base {c : Nat} : c ∈ seeds → Reach a seeds c
  | step {p c : Nat} {n : DomNode} : Reach a seeds p → getNode a p = some n →
      c ∈ n.children → Reach a seeds c

/-- A tiny DOM mid-build: the root is on the traversal stack with its cursor
still at zero and one child declared last frame, so ending the root prunes the
child. -/
def c7Dom : Dom :=
  { nodes := [(1, { ty := 5, state := 0, parent := some 0, children := [], nextChild := 0 }),
              (0, { ty := 0, state := 0, parent := none, children := [1], nextChild := 0 })]
    stack := [0]
    removedNodes := []
    root := 0
    nextId := 2 }

/-- The result of `end_widget(root)` on `c7Dom`. -/
def c7Dom' : Dom :=
  { nodes := [(0, { ty := 0, state := 0, parent := none, children := [], nextChild := 0 })]
    stack := []
    removedNodes := [1, 1]
    root := 0
    nextId := 2 }

/-- C10 witness: trimming the root of the concrete DOM (root keeps no child,
its child 1 has a grandchild 2) records the direct child twice and the
grandchild once. -/
def c10Arena : Arena :=
  [(2, { ty := 6, state := 0, parent := some 1, children := [], nextChild := 0 }),
   (1, { ty := 5, state := 0, parent := some 0, children := [2], nextChild := 1 }),
   (0, { ty := 0, state := 0, parent := none, children := [1], nextChild := 0 })]

/-! ### Script-built trees

`builtS a slice s` says the child-id slice is, position by position, exactly
the tree the script `s` declares: matching concrete type, a widget state that
the update routine (with this frame's props) leaves unchanged, the cursor and
child count equal to the number of declared children, recursively.  This is
the state of the arena after a frame that declared `s` without any
type-mismatch replacement. -/
def builtS : Arena → List Nat → Script → Bool
  | _, _, .nil => true
  | a, slice, .node ty upd cs rest =>
    match slice with
    | [] => false
    | c :: slice' =>
      (match getNode a c with
       | none => false
       | some n =>
         n.ty == ty && (upd n.state == n.state) && (n.nextChild == scriptLength cs)
           && (n.children.length == scriptLength cs) && builtS a n.children cs)
      && builtS a slice' rest

/-- A rank function witnessing that the arena's child links are acyclic:
children always have strictly larger rank. -/
def RankedBy (rank : Nat → Nat) (a : Arena) : Prop :=
  ∀ p ∈ a, ∀ c ∈ p.2.children, rank p.1 < rank c

instance decRankedBy (rank : Nat → Nat) (a : Arena) : Decidable (RankedBy rank a) := by
  unfold RankedBy
  infer_instance

/-! ### The node invariant

The spec's node invariant over an arena with a distinguished root and the
fresh-id bound: keys are distinct, the root is live and parentless, children
ids are live with a consistent parent back-reference, nothing references the
root, each child list is duplicate-free, no id is referenced from two places,
every non-root node is referenced by its parent, and every key is below the
fresh-id counter.  All quantifiers are bounded, so the invariant is decidable
on concrete DOMs. -/
def WfArena (a : Arena) (root : Nat) (bound : Nat) : Prop :=
  (keysOf a).Nodup
  ∧ (∃ p ∈ a, p.1 = root ∧ p.2.parent = none)
  ∧ (∀ p ∈ a, ∀ c ∈ p.2.children, ∃ q ∈ a, q.1 = c ∧ q.2.parent = some p.1)
  ∧ (∀ p ∈ a, root ∉ p.2.children)
  ∧ (∀ p ∈ a, p.2.children.Nodup)
  ∧ (∀ p ∈ a, ∀ q ∈ a, ∀ c ∈ p.2.children, c ∈ q.2.children → p.1 = q.1)
  ∧ (∀ p ∈ a, p.1 ≠ root → ∃ q ∈ a, p.2.parent = some q.1 ∧ p.1 ∈ q.2.children)
  ∧ (∀ p ∈ a, p.1 < bound)

/-- The node invariant of a DOM. -/
def WfDom (d : Dom) : Prop := WfArena d.nodes d.root d.nextId

instance decWfArena (a : Arena) (root bound : Nat) : Decidable (WfArena a root bound) := by
  unfold WfArena
  infer_instance

instance decWfDom (d : Dom) : Decidable (WfDom d) := by
  unfold WfDom
  infer_instance

/-- The slot `begin_widget` is about to reconcile is empty or holds a child
whose stored concrete type is the declared one: the condition under which the
type-mismatch path is not taken. -/
def slotCompatible (d : Dom) (ty : Nat) : Prop :=
  ∀ p ∈ d.nodes, p.1 = domCurrent d →
    ∀ cid, p.2.children.get? p.2.nextChild = some cid →
      ∀ q ∈ d.nodes, q.1 = cid → q.2.ty = ty

instance decSlotCompatible (d : Dom) (ty : Nat) : Decidable (slotCompatible d ty) := by
  unfold slotCompatible
  infer_instance

def updBump : Nat → Nat := fun s => s + 1

def updBaz : Nat → Nat := fun s => s + 10

/-- Frame-one script: `root → [Foo, Bar → [Qux]]`. -/
def sFooBar : Script :=
  .node 1 updBump .nil (.node 2 updBump (.node 4 updBump .nil .nil) .nil)

/-- Frame-two script: `root → [Foo, Baz]`. -/
def sFooBaz : Script := .node 1 updBump .nil (.node 3 updBaz .nil .nil)

/-- Script declaring a single `Foo` under the root. -/
def sFooOnly : Script := .node 1 updBump .nil .nil

/-- The DOM after frame one: A = 1, B = 2, D = 3. -/
def c1Dom₁ : Dom :=
  { nodes := [(3, { ty := 4, state := 1, parent := some 2, children := [], nextChild := 0 }),
              (2, { ty := 2, state := 1, parent := some 0, children := [3], nextChild := 1 }),
              (1, { ty := 1, state := 1, parent := some 0, children := [], nextChild := 0 }),
              (0, { ty := 0, state := 0, parent := none, children := [1, 2], nextChild := 2 })]
    stack := []
    removedNodes := []
    root := 0
    nextId := 4 }

/-- The DOM after frame two: A reused, B and D gone from the arena, C = 4
appended after B's stale (dangling) entry, removed list cleared by `finish`. -/
def c1Dom₂ : Dom :=
  { nodes := [(4, { ty := 3, state := 10, parent := some 0, children := [], nextChild := 0 }),
              (1, { ty := 1, state := 2, parent := some 0, children := [], nextChild := 0 }),
              (0, { ty := 0, state := 0, parent := none, children := [1, 2, 4], nextChild := 3 })]
    stack := []
    removedNodes := []
    root := 0
    nextId := 5 }

/-- The DOM mid-way through frame two of the scenario: the root's cursor sits
at the slot holding B (type Bar = 2), the next declaration will be Baz = 3. -/
def dMid : Dom :=
  { nodes := [(3, { ty := 4, state := 1, parent := some 2, children := [], nextChild := 0 }),
              (2, { ty := 2, state := 1, parent := some 0, children := [3], nextChild := 1 }),
              (1, { ty := 1, state := 2, parent := some 0, children := [], nextChild := 0 }),
              (0, { ty := 0, state := 0, parent := none, children := [1, 2], nextChild := 1 })]
    stack := []
    removedNodes := []
    root := 0
    nextId := 4 }

/-- The DOM right after the type-mismatch replacement in `begin_widget`: B's
id 2 is still in the root's child list but gone from the arena. -/
def dBad : Dom :=
  { nodes := [(4, { ty := 3, state := 10, parent := some 0, children := [], nextChild := 0 }),
              (1, { ty := 1, state := 2, parent := some 0, children := [], nextChild := 0 }),
              (0, { ty := 0, state := 0, parent := none, children := [1, 2, 4], nextChild := 3 })]
    stack := [4]
    removedNodes := [2, 3]
    root := 0
    nextId := 5 }

/-- The DOM produced by the type-matching `begin_widget` on `dMid`. -/
def dB2 : Dom :=
  { nodes := [(3, { ty := 4, state := 1, parent := some 2, children := [], nextChild := 0 }),
              (2, { ty := 2, state := 2, parent := some 0, children := [3], nextChild := 0 }),
              (1, { ty := 1, state := 2, parent := some 0, children := [], nextChild := 0 }),
              (0, { ty := 0, state := 0, parent := none, children := [1, 2], nextChild := 2 })]
    stack := [2]
    removedNodes := []
    root := 0
    nextId := 4 }

/-- The DOM produced by `Dom::finish` on `dMid`. -/
def dFin : Dom :=
  { nodes := [(1, { ty := 1, state := 2, parent := some 0, children := [], nextChild := 0 }),
              (0, { ty := 0, state := 0, parent := none, children := [1], nextChild := 1 })]
    stack := []
    removedNodes := [2, 2, 3]
    root := 0
    nextId := 4 }

/-- Script declaring a single `Bar` under the root. -/
def sBarOnly : Script := .node 2 updBump .nil .nil

/-- A frame-settled DOM built by a script with state-preserving updates. -/
def sConst : Script := .node 7 (fun _ => 5) (.node 8 (fun s => s) .nil .nil) .nil

def dConst : Dom :=
  { nodes := [(2, { ty := 8, state := 0, parent := some 1, children := [], nextChild := 0 }),
              (1, { ty := 7, state := 5, parent := some 0, children := [2], nextChild := 1 }),
              (0, { ty := 0, state := 0, parent := none, children := [1], nextChild := 1 })]
    stack := []
    removedNodes := []
    root := 0
    nextId := 3 }

/-- The root node of the poisoned DOM with its cursor at the dangling slot. -/
def c3Root1 : DomNode :=
  { ty := 0, state := 0, parent := none, children := [1, 2, 4], nextChild := 1 }

/-- A two-dimensional point (`glam::Vec2`, with exact coordinates). -/
abbrev V2 := Int × Int

def vsub (p q : V2) : V2 := (p.1 - q.1, p.2 - q.2)

/-- Division of a position by the layout scale factor. -/
def scaleDiv (p : V2) (s : Int) : V2 := (p.1 / s, p.2 / s)

/-- Modelled from the spec: the geometry crate (`Rect`) is not part of the
provided core source.  A rectangle is its min/max corners; `constrain`
intersects two rectangles and `containsPoint` is corner-inclusive
containment. -/
structure MRect where
  minX : Int
  minY : Int
  maxX : Int
  maxY : Int
deriving Repr, DecidableEq

def MRect.containsPoint (r : MRect) (p : V2) : Bool :=
  decide (r.minX ≤ p.1) && decide (p.1 ≤ r.maxX)
    && decide (r.minY ≤ p.2) && decide (p.2 ≤ r.maxY)

def MRect.constrain (r other : MRect) : MRect :=
  { minX := max r.minX other.minX
    minY := max r.minY other.minY
    maxX := min r.maxX other.maxX
    maxY := min r.maxY other.maxY }

/-- Modelled from the spec: `EventInterest` (the event module is not part of
the provided source) is a bitset of event categories. -/
def MOUSE_INSIDE : Nat := 1

def MOUSE_OUTSIDE : Nat := 2

def MOUSE_MOVE : Nat := 4

def FOCUSED_KEYBOARD : Nat := 8

def interestContains (a b : Nat) : Bool := (a &&& b) == b

def interestIntersects (a b : Nat) : Bool := (a &&& b) != 0

/-- A layout node as consumed by the input state machine (`LayoutDom` is an
external collaborator): rectangle, clip ancestor and declared interest. -/
structure LayoutNode where
  rect : MRect
  clippedBy : Option Nat
  eventInterest : Nat
deriving Repr, DecidableEq

/-- The read-only layout data: per-id nodes, the mouse-interest list in layout
traversal order, the scale factor and the viewport position. -/
structure MLayout where
  entries : List (Nat × LayoutNode)
  interestMouse : List (Nat × Nat)
  scaleFactor : Int
  viewportPos : V2
deriving Repr, DecidableEq

def layoutGet : List (Nat × LayoutNode) → Nat → Option LayoutNode
  | [], _ => none
  | (j, n) :: rest, i => if j = i then some n else layoutGet rest i

/-- `ButtonState` from `input_state.rs`. -/
inductive ButtonState where
  | JustDown
  | Down
  | JustUp
  | Up
deriving Repr, DecidableEq

def ButtonState.isDown : ButtonState → Bool
  | .JustDown => true
  | .Down => true
  | .JustUp => false
  | .Up => false

def ButtonState.settle : ButtonState → ButtonState
  | .JustDown => .Down
  | .JustUp => .Up
  | s => s

/-- A widget-level event (`WidgetEvent`), with the payloads the modelled
dispatch paths carry. -/
inductive MEvent where
  | MouseEnter
  | MouseLeave
  | MouseMoved (pos : Option V2)
  | FocusChanged (focused : Bool)
  | MouseButtonChanged (button : Nat) (down : Bool) (inside : Bool)
      (position : V2) (modifiers : Nat)
  | MouseScroll (delta : V2)
  | KeyChanged (key : Nat) (down : Bool) (modifiers : Nat)
  | TextInput (c : Nat)
deriving Repr, DecidableEq

/-- An event handler response (`EventResponse`). -/
inductive MResponse where
  | Bubble
  | Sink
deriving Repr, DecidableEq

/-- The widgets' event routines, abstractly: response by widget id and event. -/
abbrev Handler := Nat → MEvent → MResponse

/-- The log of delivered events, in delivery order. -/
abbrev Log := List (Nat × MEvent)

/-- `InputState`: pointer position, per-button states, modifiers, hit-test
result, entered and entered-and-sunk sets, per-button press locations (unused
by the source), and current/previous selection. -/
structure MInput where
  mousePosition : Option V2
  buttons : List (Nat × ButtonState)
  modifiers : Nat
  mouseHit : List Nat
  mouseEntered : List Nat
  mouseEnteredAndSunk : List Nat
  mouseDownIn : List (Nat × List Nat)
  selection : Option Nat
  lastSelection : Option Nat
deriving Repr, DecidableEq

/-- `InputState::new`. -/
def inputNew : MInput :=
  { mousePosition := none
    buttons := []
    modifiers := 0
    mouseHit := []
    mouseEntered := []
    mouseEnteredAndSunk := []
    mouseDownIn := []
    selection := none
    lastSelection := none }

/-- `InputState::notify_selection`: on a changed selection, fire
`FocusChanged(true)` to the new selection and then `FocusChanged(false)` to
the previous one, then commit previous := current.  Both lookups are
`dom.get_mut(..).unwrap()`: a removed widget panics. -/
def notifySelection (dom : Dom) (_h : Handler) (inp : MInput) : Option (MInput × Log) :=
  if inp.selection = inp.lastSelection then some (inp, [])
  else
    match inp.selection with
    | some entered =>
      match getNode dom.nodes entered with
      | none => none
      | some _ =>
        match inp.lastSelection with
        | some left =>
          match getNode dom.nodes left with
          | none => none
          | some _ =>
            some ({ inp with lastSelection := inp.selection },
              [(entered, MEvent.FocusChanged true), (left, MEvent.FocusChanged false)])
        | none =>
          some ({ inp with lastSelection := inp.selection },
            [(entered, MEvent.FocusChanged true)])
    | none =>
      match inp.lastSelection with
      | some left =>
        match getNode dom.nodes left with
        | none => none
        | some _ =>
          some ({ inp with lastSelection := inp.selection },
            [(left, MEvent.FocusChanged false)])
      | none => some ({ inp with lastSelection := inp.selection }, [])

/-- `InputState::send_mouse_move`: notify widgets with `MOUSE_MOVE` interest,
in reverse layout order; `dom.get_mut(id).unwrap()` panics on a missing
widget. -/
def sendMouseMoveLoop (dom : Dom) (pos : Option V2) :
    List (Nat × Nat) → Log → Option Log
  | [], log => some log
  | (id, interest) :: rest, log =>
    if interestIntersects interest MOUSE_MOVE then
      match getNode dom.nodes id with
      | none => none
      | some _ => sendMouseMoveLoop dom pos rest (log ++ [(id, MEvent.MouseMoved pos)])
    else
      sendMouseMoveLoop dom pos rest log

def sendMouseMove (dom : Dom) (layout : MLayout) (inp : MInput) : Option Log :=
  sendMouseMoveLoop dom (inp.mousePosition.map (fun p => scaleDiv p layout.scaleFactor))
    layout.interestMouse.reverse []

/-- The clip-ancestry chain of `hit_test`, fueled (a well-formed layout's
chain is acyclic and shorter than the entry count; a cyclic chain diverges in
the source and exhausts the fuel here). -/
def clipChainF : Nat → MLayout → MRect → Option Nat → Option MRect
  | _, _, rect, none => some rect
  | 0, _, _, some _ => none
  | fuel + 1, layout, rect, some parent =>
    match layoutGet layout.entries parent with
    | none => none
    | some pn => clipChainF fuel layout (rect.constrain pn.rect) pn.clippedBy

/-- `hit_test`: visit mouse-interest candidates in reverse layout order and
keep those whose clip-constrained rectangle contains the point. -/
def hitTestLoop (layout : MLayout) (coords : V2) :
    List (Nat × Nat) → List Nat → Option (List Nat)
  | [], out => some out
  | (id, _) :: rest, out =>
    match layoutGet layout.entries id with
    | none => none
    | some ln =>
      match clipChainF (layout.entries.length + 1) layout ln.rect ln.clippedBy with
      | none => none
      | some rect =>
        hitTestLoop layout coords rest (if rect.containsPoint coords then out ++ [id] else out)

def hitTest (layout : MLayout) (coords : V2) : Option (List Nat) :=
  hitTestLoop layout coords layout.interestMouse.reverse []

/-- `InputState::mouse_hit_test`. -/
def mouseHitTest (layout : MLayout) (inp : MInput) : Option MInput :=
  match inp.mousePosition with
  | none => some { inp with mouseHit := [] }
  | some pos =>
    match hitTest layout (scaleDiv pos layout.scaleFactor) with
    | none => none
    | some hits => some { inp with mouseHit := hits }

/-- The loop of `send_mouse_enter`: walk the hit list; a newly-hit live widget
is pushed into the entered set and receives `MouseEnter`, a sunk response also
records it in entered-and-sunk and stops the walk; an already-entered widget
that sunk before also stops the walk. -/
def enterLoop (dom : Dom) (h : Handler) :
    List Nat → List Nat → List Nat → Log → List Nat × List Nat × Log
  | [], entered, sunk, log => (entered, sunk, log)
  | hit :: rest, entered, sunk, log =>
    match getNode dom.nodes hit with
    | none => enterLoop dom h rest entered sunk log
    | some _ =>
      if entered.contains hit then
        if sunk.contains hit then
          (entered, sunk, log)
        else
          enterLoop dom h rest entered sunk log
      else
        let entered₁ := entered ++ [hit]
        let log₁ := log ++ [(hit, MEvent.MouseEnter)]
        if h hit MEvent.MouseEnter = MResponse.Sink then
          (entered₁, sunk ++ [hit], log₁)
        else
          enterLoop dom h rest entered₁ sunk log₁

def sendMouseEnter (dom : Dom) (h : Handler) (inp : MInput) : MInput × Log :=
  match enterLoop dom h inp.mouseHit inp.mouseEntered inp.mouseEnteredAndSunk [] with
  | (entered, sunk, log) =>
    ({ inp with mouseEntered := entered, mouseEnteredAndSunk := sunk }, log)

/-- The collection pass of `send_mouse_leave`: every entered widget that is no
longer hit goes into `to_remove` (and receives `MouseLeave` when still
alive). -/
def leaveCollect (dom : Dom) (mouseHit : List Nat) :
    List Nat → Log → List Nat × Log
  | [], log => ([], log)
  | e :: rest, log =>
    if mouseHit.contains e then
      leaveCollect dom mouseHit rest log
    else
      let log₁ :=
        match getNode dom.nodes e with
        | none => log
        | some _ => log ++ [(e, MEvent.MouseLeave)]
      match leaveCollect dom mouseHit rest log₁ with
      | (toRemove, log₂) => (e :: toRemove, log₂)

/-- The removal pass of `send_mouse_leave`: one `retain` per removed id. -/
def retainAll (l : List Nat) (rs : List Nat) : List Nat :=
  rs.foldl (fun acc r => acc.filter (fun x => x != r)) l

def sendMouseLeave (dom : Dom) (inp : MInput) : MInput × Log :=
  match leaveCollect dom inp.mouseHit inp.mouseEntered [] with
  | (toRemove, log) =>
    ({ inp with
         mouseEntered := retainAll inp.mouseEntered toRemove
         mouseEnteredAndSunk := retainAll inp.mouseEnteredAndSunk toRemove }, log)

/-- `InputState::mouse_moved`: store the translated position, then — in this
order — send mouse-move events, recompute the hit test, send `MouseEnter`s,
send `MouseLeave`s. -/
def mouseMoved (dom : Dom) (layout : MLayout) (h : Handler) (inp : MInput)
    (pos : Option V2) : Option (MInput × Log) :=
  let inp₁ := { inp with mousePosition := pos.map (fun p => vsub p layout.viewportPos) }
  match sendMouseMove dom layout inp₁ with
  | none => none
  | some log₁ =>
    match mouseHitTest layout inp₁ with
    | none => none
    | some inp₂ =>
      match sendMouseEnter dom h inp₂ with
      | (inp₃, log₂) =>
        match sendMouseLeave dom inp₃ with
        | (inp₄, log₃) => some (inp₄, log₁ ++ log₂ ++ log₃)

/-- The per-button transition of `mouse_button_changed`: a raw event agreeing
with `is_down` is a no-op, otherwise the state becomes `JustDown`/`JustUp`. -/
def buttonTransition (s : ButtonState) (down : Bool) : ButtonState :=
  match s.isDown, down with
  | true, true => s
  | false, false => s
  | false, true => ButtonState.JustDown
  | true, false => ButtonState.JustUp

/-- `buttons.entry(button).or_insert(ButtonState::Up)` then read. -/
def getButton : List (Nat × ButtonState) → Nat → ButtonState
  | [], _ => ButtonState.Up
  | (k, v) :: rest, b => if k = b then v else getButton rest b

def setButton : List (Nat × ButtonState) → Nat → ButtonState → List (Nat × ButtonState)
  | [], b, s => [(b, s)]
  | (k, v) :: rest, b, s => if k = b then (k, s) :: rest else (k, v) :: setButton rest b s

/-- The state update of `InputState::mouse_button_changed`. -/
def mouseButtonChangedState (buttons : List (Nat × ButtonState)) (b : Nat)
    (down : Bool) : List (Nat × ButtonState) :=
  setButton buttons b (buttonTransition (getButton buttons b) down)

/-- `InputState::settle_buttons` (the body of `finish`). -/
def settleButtons (buttons : List (Nat × ButtonState)) : List (Nat × ButtonState) :=
  buttons.map (fun p => (p.1, p.2.settle))

/-- Modelled from the spec: the frame-boundary synchronization that consumes
`Dom::removed_nodes` ("used for synchronizing state with the primary DOM
storage") is not part of the provided source.  Per the spec, InputState
entries for destroyed widgets are purged at the frame boundary: the selection
is cleared when it references a removed id and the entered sets are filtered
against the removed-id list. -/
def purgeRemoved (d : Dom) (inp : MInput) : MInput :=
  { inp with
      selection :=
        match inp.selection with
        | some i => if d.removedNodes.contains i then none else some i
        | none => none
      mouseEntered := inp.mouseEntered.filter (fun i => !(d.removedNodes.contains i))
      mouseEnteredAndSunk :=
        inp.mouseEnteredAndSunk.filter (fun i => !(d.removedNodes.contains i)) }

/-! ### C9: the button edge state machine -/

/-- An optional id that is either absent or names a live node. -/
def optAliveB (dom : Dom) : Option Nat → Bool
  | none => true
  | some i => (getNode dom.nodes i).isSome

/-- The notifications a selection change produces: gain before loss. -/
def focusLog : Option Nat → Option Nat → Log
  | cur, last =>
    (match cur with
     | some y => [(y, MEvent.FocusChanged true)]
     | none => []) ++
    (match last with
     | some x => [(x, MEvent.FocusChanged false)]
     | none => [])

/-- The handler that bubbles every event. -/
def hBubble : Handler := fun _ _ => MResponse.Bubble

/-- Frame-one script for the purge scenario: `root → [Foo → [Bar]]`. -/
def sNest : Script := .node 1 updBump (.node 2 updBump .nil .nil) .nil

/-- The DOM after frame two of the purge scenario: widget 2 was destroyed by
`end_widget`'s trim during the frame, and `finish` then cleared the
removed-list. -/
def dTrim : Dom :=
  { nodes := [(1, { ty := 1, state := 2, parent := some 0, children := [], nextChild := 0 }),
              (0, { ty := 0, state := 0, parent := none, children := [1], nextChild := 1 })]
    stack := []
    removedNodes := []
    root := 0
    nextId := 3 }

/-- An input state whose entries all reference widget 2. -/
def c6Inp : MInput :=
  { inputNew with
      selection := some 2
      mouseEntered := [2]
      mouseEnteredAndSunk := [2] }

/-- Helper for the delivery-order predicates: fold over the log with a flag
recording whether the trigger event kind was seen. -/
def eplGo : Log → Bool → Bool
  | [], _ => true
  | (_, e) :: rest, seenLeave =>
    match e with
    | MEvent.MouseEnter => if seenLeave then false else eplGo rest seenLeave
    | MEvent.MouseLeave => eplGo rest true
    | _ => eplGo rest seenLeave

/-- Every `MouseEnter` in the log is delivered before every `MouseLeave`. -/
def entersPrecedeLeaves (log : Log) : Bool := eplGo log false

def lpeGo : Log → Bool → Bool
  | [], _ => true
  | (_, e) :: rest, seenEnter =>
    match e with
    | MEvent.MouseLeave => if seenEnter then false else lpeGo rest seenEnter
    | MEvent.MouseEnter => lpeGo rest true
    | _ => lpeGo rest seenEnter

/-- Every `MouseLeave` in the log is delivered before every `MouseEnter`
(the ordering the claim asserts). -/
def leavesPrecedeEnters (log : Log) : Bool := lpeGo log false

/-- C5 scenario layout: widget 2 occupies `[0,10]²`, declares only
`MOUSE_INSIDE` interest, is unclipped; nobody listens to raw mouse-move. -/
def c5Layout : MLayout :=
  { entries := [(2, { rect := { minX := 0, minY := 0, maxX := 10, maxY := 10 }
                      clippedBy := none
                      eventInterest := MOUSE_INSIDE })]
    interestMouse := [(2, MOUSE_INSIDE)]
    scaleFactor := 1
    viewportPos := (0, 0) }

/-- C5 scenario input: widget 1 is currently entered, nothing is sunk. -/
def c5Inp : MInput := { inputNew with mouseEntered := [1] }

/-- C5 scenario result: after the move to (5,5) widget 2 is hit and entered,
widget 1 has been removed from the entered set. -/
def c5Out : MInput :=
  { mousePosition := some (5, 5)
    buttons := []
    modifiers := 0
    mouseHit := [2]
    mouseEntered := [2]
    mouseEnteredAndSunk := []
    mouseDownIn := []
    selection := none
    lastSelection := none }

theorem getNode_setNode_self : ∀ (a : Arena) (i : Nat) (n m : DomNode),
    getNode a i = some n → getNode (setNode a i m) i = some m := by
  intro a i n m h
  induction a with
  | nil => simp [getNode] at h
  | cons p rest ih =>
    obtain ⟨j, v⟩ := p
    by_cases hji : j = i
    · subst hji
      simp [setNode, getNode]
    · simp [getNode, hji] at h
      simp [setNode, getNode, hji]
      exact ih h

theorem getNode_setNode_ne : ∀ (a : Arena) (i j : Nat) (m : DomNode), i ≠ j →
    getNode (setNode a i m) j = getNode a j := by
  intro a i j m hij
  induction a with
  | nil => simp [setNode]
  | cons p rest ih =>
    obtain ⟨k, v⟩ := p
    by_cases hki : k = i
    · subst hki
      simp [setNode, getNode, hij]
    · simp [setNode, hki, getNode]
      by_cases hkj : k = j
      · simp [hkj]
      · simp [hkj]
        exact ih

theorem getNode_setNode_absent : ∀ (a : Arena) (i : Nat) (m : DomNode),
    getNode a i = none → setNode a i m = a := by
  intro a i m h
  induction a with
  | nil => simp [setNode]
  | cons p rest ih =>
    obtain ⟨k, v⟩ := p
    by_cases hki : k = i
    · subst hki
      simp [getNode] at h
    · simp [getNode, hki] at h
      simp [setNode, hki, ih h]

theorem getNode_removeNode_self : ∀ (a : Arena) (i : Nat),
    getNode (removeNode a i) i = none := by
  intro a i
  induction a with
  | nil => simp [removeNode, getNode]
  | cons p rest ih =>
    obtain ⟨k, v⟩ := p
    by_cases hki : k = i
    · simp [removeNode, hki, ih]
    · simp [removeNode, hki, getNode, ih]

theorem getNode_removeNode_ne : ∀ (a : Arena) (i j : Nat), i ≠ j →
    getNode (removeNode a i) j = getNode a j := by
  intro a i j hij
  induction a with
  | nil => simp [removeNode]
  | cons p rest ih =>
    obtain ⟨k, v⟩ := p
    by_cases hki : k = i
    · subst hki
      simp [removeNode, getNode, hij, ih]
    · simp [removeNode, hki, getNode]
      by_cases hkj : k = j
      · simp [hkj]
      · simp [hkj, ih]

theorem length_removeNode_le : ∀ (a : Arena) (i : Nat),
    (removeNode a i).length ≤ a.length := by
  intro a i
  induction a with
  | nil => simp [removeNode]
  | cons p rest ih =>
    obtain ⟨k, v⟩ := p
    by_cases hki : k = i
    · simp [removeNode, hki]
      exact Nat.le_succ_of_le ih
    · simp [removeNode, hki]
      exact ih

theorem length_removeNode_lt : ∀ (a : Arena) (i : Nat) (n : DomNode),
    getNode a i = some n → (removeNode a i).length < a.length := by
  intro a i n h
  induction a with
  | nil => simp [getNode] at h
  | cons p rest ih =>
    obtain ⟨k, v⟩ := p
    by_cases hki : k = i
    · simp [removeNode, hki]
      exact Nat.lt_succ_of_le (length_removeNode_le rest i)
    · simp [getNode, hki] at h
      simp [removeNode, hki]
      exact ih h

theorem setNode_self : ∀ (a : Arena) (i : Nat) (n : DomNode),
    getNode a i = some n → setNode a i n = a := by
  intro a i n h
  induction a with
  | nil => simp [getNode] at h
  | cons p rest ih =>
    obtain ⟨k, v⟩ := p
    by_cases hki : k = i
    · subst hki
      simp [getNode] at h
      simp [setNode, h]
    · simp [getNode, hki] at h
      simp [setNode, hki, ih h]

theorem setNode_setNode : ∀ (a : Arena) (i : Nat) (m m' : DomNode),
    setNode (setNode a i m) i m' = setNode a i m' := by
  intro a i m m'
  induction a with
  | nil => simp [setNode]
  | cons p rest ih =>
    obtain ⟨k, v⟩ := p
    by_cases hki : k = i
    · simp [setNode, hki]
    · simp [setNode, hki, ih]

theorem getNode_mem : ∀ (a : Arena) (i : Nat) (n : DomNode),
    getNode a i = some n → (i, n) ∈ a := by
  intro a i n h
  induction a with
  | nil => simp [getNode] at h
  | cons p rest ih =>
    obtain ⟨k, v⟩ := p
    by_cases hki : k = i
    · subst hki
      simp [getNode] at h
      simp [h]
    · simp [getNode, hki] at h
      exact List.mem_cons_of_mem _ (ih h)

theorem getNode_removeNode_some : ∀ (a : Arena) (i c : Nat) (n : DomNode),
    getNode (removeNode a i) c = some n → getNode a c = some n := by
  intro a i c n h
  by_cases hic : i = c
  · subst hic
    rw [getNode_removeNode_self] at h
    exact Option.noConfusion h
  · rwa [getNode_removeNode_ne a i c hic] at h

/-! ### Reachability through the arena and the trim worklist -/

theorem reach_nil {a : Arena} {c : Nat} : ¬ Reach a [] c := by
  intro h
  induction h with
  | base hc => simp at hc
  | step _ _ _ ih => exact ih

/-- Unfolding one worklist pop: anything reachable from `cid :: qs` is either
`cid` itself or reachable from the new worklist in the shrunken arena. -/
theorem reach_cons_forward {nodes : Arena} {cid : Nat} {child : DomNode}
    {qs : List Nat} (hget : getNode nodes cid = some child) {c : Nat}
    (h : Reach nodes (cid :: qs) c) :
    c = cid ∨ Reach (removeNode nodes cid) (qs ++ child.children) c := by
  induction h with
  | base hc =>
    rcases List.mem_cons.mp hc with h | h
    · exact Or.inl h
    · exact Or.inr (Reach.base (List.mem_append_left _ h))
  | @step p c n hp hn hc ih =>
    by_cases hpc : p = cid
    · subst hpc
      rw [hget] at hn
      cases hn
      exact Or.inr (Reach.base (List.mem_append_right _ hc))
    · rcases ih with h | h
      · exact absurd h hpc
      · refine Or.inr (Reach.step h ?_ hc)
        rwa [getNode_removeNode_ne nodes cid p (fun hh => hpc hh.symm)]

/-- Folding one worklist pop back: anything reachable from the new worklist in
the shrunken arena was already reachable from `cid :: qs`. -/
theorem reach_cons_backward {nodes : Arena} {cid : Nat} {child : DomNode}
    {qs : List Nat} (hget : getNode nodes cid = some child) {c : Nat}
    (h : Reach (removeNode nodes cid) (qs ++ child.children) c) :
    Reach nodes (cid :: qs) c := by
  induction h with
  | base hc =>
    rcases List.mem_append.mp hc with h | h
    · exact Reach.base (List.mem_cons_of_mem _ h)
    · exact Reach.step (Reach.base (List.mem_cons_self _ _)) hget h
  | @step p c n hp hn hc ih =>
    exact Reach.step ih (getNode_removeNode_some _ _ _ _ hn) hc

/-- Master description of the trim worklist loop, under enough fuel: on
success, the ids popped (and appended to the removed list, in order) are
pairwise distinct, were all present, are exactly the ids reachable from the
initial queue, are all gone afterwards, and every other id is untouched. -/
theorem trimLoopF_spec : ∀ (fuel : Nat) (nodes : Arena) (removed queue : List Nat)
    (nodes' : Arena) (removed' : List Nat),
    nodes.length < fuel →
    trimLoopF fuel nodes removed queue = some (nodes', removed') →
    ∃ pops : List Nat,
      removed' = removed ++ pops
      ∧ pops.Nodup
      ∧ (∀ c ∈ pops, ∃ n, getNode nodes c = some n)
      ∧ (∀ c ∈ pops, getNode nodes' c = none)
      ∧ (∀ c, Reach nodes queue c → c ∈ pops)
      ∧ (∀ c ∈ pops, Reach nodes queue c)
      ∧ (∀ i, ¬ Reach nodes queue i → getNode nodes' i = getNode nodes i) := by
  intro fuel
  induction fuel with
  | zero =>
    intro nodes removed queue nodes' removed' hlen _
    exact absurd hlen (Nat.not_lt_zero _)
  | succ fuel ih =>
    intro nodes removed queue nodes' removed' hlen heq
    cases queue with
    | nil =>
      simp only [trimLoopF, Option.some.injEq, Prod.mk.injEq] at heq
      obtain ⟨h1, h2⟩ := heq
      refine ⟨[], by simp [h2.symm], List.nodup_nil, by simp, by simp, ?_, by simp, ?_⟩
      · intro c hc
        exact absurd hc reach_nil
      · intro i _
        rw [h1]
    | cons cid qs =>
      cases hget : getNode nodes cid with
      | none => simp [trimLoopF, hget] at heq
      | some child =>
        simp only [trimLoopF, hget] at heq
        have hlen' : (removeNode nodes cid).length < fuel :=
          Nat.lt_of_lt_of_le (length_removeNode_lt nodes cid child hget)
            (Nat.le_of_lt_succ hlen)
        obtain ⟨pops, hrm, hnd, hpres, hgone, hreach1, hreach2, hout⟩ :=
          ih (removeNode nodes cid) (removed ++ [cid]) (qs ++ child.children)
            nodes' removed' hlen' heq
        have hcidpops : cid ∉ pops := by
          intro hmem
          obtain ⟨n, hn⟩ := hpres cid hmem
          rw [getNode_removeNode_self] at hn
          exact Option.noConfusion hn
        have hnewreach : ¬ Reach (removeNode nodes cid) (qs ++ child.children) cid := by
          intro h
          exact hcidpops (hreach1 cid h)
        refine ⟨cid :: pops, ?_, ?_, ?_, ?_, ?_, ?_, ?_⟩
        · rw [hrm, List.append_assoc]
          rfl
        · exact List.nodup_cons.mpr ⟨hcidpops, hnd⟩
        · intro c hc
          rcases List.mem_cons.mp hc with h | h
          · exact ⟨child, h ▸ hget⟩
          · obtain ⟨n, hn⟩ := hpres c h
            exact ⟨n, getNode_removeNode_some _ _ _ _ hn⟩
        · intro c hc
          rcases List.mem_cons.mp hc with h | h
          · rw [h, hout cid hnewreach]
            exact getNode_removeNode_self _ _
          · exact hgone c h
        · intro c hc
          rcases reach_cons_forward hget hc with h | h
          · exact h ▸ List.mem_cons_self _ _
          · exact List.mem_cons_of_mem _ (hreach1 c h)
        · intro c hc
          rcases List.mem_cons.mp hc with h | h
          · exact Reach.base (h ▸ List.mem_cons_self _ _)
          · exact reach_cons_backward hget (hreach2 c h)
        · intro i hi
          have hicid : i ≠ cid := fun h => hi (Reach.base (h ▸ List.mem_cons_self _ _))
          have hinew : ¬ Reach (removeNode nodes cid) (qs ++ child.children) i :=
            fun h => hi (reach_cons_backward hget h)
          rw [hout i hinew]
          exact getNode_removeNode_ne nodes cid i (fun h => hicid h.symm)

/-- Truncating the trimmed node's child list does not lose reachability from
the stale slice: a path using the dropped slice restarts at a seed. -/
theorem reach_truncate {nodes : Arena} {id : Nat} {n : DomNode}
    (hn : getNode nodes id = some n) {k : Nat} {c : Nat}
    (h : Reach nodes (n.children.drop k) c) :
    Reach (setNode nodes id { n with children := n.children.take k })
      (n.children.drop k) c := by
  induction h with
  | base hc => exact Reach.base hc
  | @step p c m hp hm hc ih =>
    by_cases hpid : p = id
    · subst hpid
      rw [hn] at hm
      cases hm
      have : c ∈ n.children.take k ++ n.children.drop k := by
        rw [List.take_append_drop]
        exact hc
      rcases List.mem_append.mp this with h | h
      · exact Reach.step ih (getNode_setNode_self nodes p n _ hn) h
      · exact Reach.base h
    · refine Reach.step ih ?_ hc
      rw [getNode_setNode_ne nodes id p _ (fun h => hpid h.symm)]
      exact hm

/-- C7: after a successful `end_widget(id)`, every child of `id` at an index
at or past the final reconciliation cursor, and transitively every id
reachable from those children, is absent from the arena and appears in the
removed-list. -/
theorem c7_pruning (d : Dom) (id : Nat) (n : DomNode) (d' : Dom)
    (hn : getNode d.nodes id = some n)
    (hend : endWidget d id = some d') :
    ∀ c, Reach d.nodes (n.children.drop n.nextChild) c →
      getNode d'.nodes c = none ∧ c ∈ d'.removedNodes := by
  unfold endWidget at hend
  cases hstack : d.stack with
  | nil =>
    rw [hstack] at hend
    exact Option.noConfusion hend
  | cons top rest =>
    rw [hstack] at hend
    dsimp only at hend
    by_cases htop : top = id
    · rw [if_pos htop] at hend
      cases htrim : trimChildren d.nodes d.removedNodes id with
      | none =>
        rw [htrim] at hend
        exact Option.noConfusion hend
      | some pr =>
        obtain ⟨nodes', removed'⟩ := pr
        rw [htrim] at hend
        cases hend
        unfold trimChildren at htrim
        rw [hn] at htrim
        by_cases hlt : n.nextChild < n.children.length
        · simp only [hlt, if_true] at htrim
          obtain ⟨pops, hrm, _, _, hgone, hreach1, _, _⟩ :=
            trimLoopF_spec _ _ _ _ _ _ (Nat.lt_succ_self _) htrim
          intro c hc
          have hc₁ := reach_truncate hn hc
          have hcpops := hreach1 c hc₁
          refine ⟨hgone c hcpops, ?_⟩
          simp only [hrm]
          exact List.mem_append_right _ hcpops
        · simp only [hlt, if_false] at htrim
          obtain ⟨h1, h2⟩ := Option.some.injEq _ _ ▸ htrim
          intro c hc
          rw [List.drop_eq_nil_of_le (Nat.le_of_not_lt hlt)] at hc
          exact absurd hc reach_nil
    · rw [if_neg htop] at hend
      exact Option.noConfusion hend

/-- C7 witness: the stale child of the concrete DOM is gone and recorded. -/
theorem c7_pruning_witness :
    getNode c7Dom'.nodes 1 = none ∧ 1 ∈ c7Dom'.removedNodes :=
  c7_pruning c7Dom 0
    { ty := 0, state := 0, parent := none, children := [1], nextChild := 0 }
    c7Dom' (by decide) (by decide) 1 (Reach.base (List.mem_cons_self _ _))

/-- C10: on a successful `trim_children`, each directly-pruned stale child is
appended to the removed list twice (once with the bulk slice, once when it is
dequeued), while every strictly deeper reachable descendant is appended exactly
once.  The hypothesis that the trimmed node's child list has no duplicates
holds for every well-formed tree. -/
theorem c10_duplicates (nodes : Arena) (removed : List Nat) (id : Nat) (n : DomNode)
    (nodes' : Arena) (removed' : List Nat)
    (hn : getNode nodes id = some n)
    (hnd : n.children.Nodup)
    (htrim : trimChildren nodes removed id = some (nodes', removed')) :
    (∀ c ∈ n.children.drop n.nextChild, removed'.count c = removed.count c + 2)
    ∧ (∀ c, Reach nodes (n.children.drop n.nextChild) c →
        c ∉ n.children.drop n.nextChild → removed'.count c = removed.count c + 1) := by
  unfold trimChildren at htrim
  rw [hn] at htrim
  by_cases hlt : n.nextChild < n.children.length
  · simp only [hlt, if_true] at htrim
    obtain ⟨pops, hrm, hpopsnd, _, _, hreach1, _, _⟩ :=
      trimLoopF_spec _ _ _ _ _ _ (Nat.lt_succ_self _) htrim
    have hdropnd : (n.children.drop n.nextChild).Nodup :=
      hnd.sublist (List.drop_sublist _ _)
    constructor
    · intro c hc
      have hcpops : c ∈ pops := hreach1 c (reach_truncate hn (Reach.base hc))
      rw [hrm, List.count_append, List.count_append,
        List.count_eq_one_of_mem hdropnd hc, List.count_eq_one_of_mem hpopsnd hcpops]
    · intro c hc hnotin
      have hcpops : c ∈ pops := hreach1 c (reach_truncate hn hc)
      rw [hrm, List.count_append, List.count_append,
        List.count_eq_zero_of_not_mem hnotin, List.count_eq_one_of_mem hpopsnd hcpops]
  · simp only [hlt, if_false] at htrim
    obtain ⟨h1, h2⟩ := Prod.mk.injEq _ _ _ _ ▸ Option.some.injEq _ _ ▸ htrim
    constructor
    · intro c hc
      rw [List.drop_eq_nil_of_le (Nat.le_of_not_lt hlt)] at hc
      simp at hc
    · intro c hc _
      rw [List.drop_eq_nil_of_le (Nat.le_of_not_lt hlt)] at hc
      exact absurd hc reach_nil

theorem c10_duplicates_witness :
    ([1, 1, 2] : List Nat).count 1 = ([] : List Nat).count 1 + 2
    ∧ ([1, 1, 2] : List Nat).count 2 = ([] : List Nat).count 2 + 1 := by
  have h := c10_duplicates c10Arena [] 0
    { ty := 0, state := 0, parent := none, children := [1], nextChild := 0 }
    [(0, { ty := 0, state := 0, parent := none, children := [], nextChild := 0 })]
    [1, 1, 2] (by decide) (by decide) (by decide)
  have hstep : getNode c10Arena 1 =
      some { ty := 5, state := 0, parent := some 0, children := [2], nextChild := 1 } := by
    decide
  exact ⟨h.1 1 (by decide),
    h.2 2 (Reach.step (Reach.base (by decide)) hstep (by decide)) (by decide)⟩

theorem rankedBy_lt {rank : Nat → Nat} {a : Arena} (h : RankedBy rank a)
    {i : Nat} {n : DomNode} {c : Nat} (hi : getNode a i = some n)
    (hc : c ∈ n.children) : rank i < rank c :=
  h (i, n) (getNode_mem a i n hi) c hc

theorem mem_setNode_cases : ∀ (a : Arena) (i : Nat) (m : DomNode) (p : Nat × DomNode),
    p ∈ setNode a i m → p ∈ a ∨ p = (i, m) := by
  intro a i m
  induction a with
  | nil =>
    intro p hp
    exact absurd hp (List.not_mem_nil p)
  | cons q rest ih =>
    intro p hp
    obtain ⟨k, v⟩ := q
    have hunf : setNode ((k, v) :: rest) i m =
        if k = i then (k, m) :: rest else (k, v) :: setNode rest i m := rfl
    by_cases hki : k = i
    · rw [hunf, if_pos hki] at hp
      rcases List.mem_cons.mp hp with h | h
      · exact Or.inr (by rw [h, hki])
      · exact Or.inl (List.mem_cons_of_mem _ h)
    · rw [hunf, if_neg hki] at hp
      rcases List.mem_cons.mp hp with h | h
      · exact Or.inl (h ▸ List.mem_cons_self _ _)
      · rcases ih p h with h' | h'
        · exact Or.inl (List.mem_cons_of_mem _ h')
        · exact Or.inr h'

theorem ranked_setNode {rank : Nat → Nat} {a : Arena} {i : Nat} {n m : DomNode}
    (h : RankedBy rank a) (hn : getNode a i = some n)
    (hch : m.children = n.children) : RankedBy rank (setNode a i m) := by
  intro p hp c hc
  rcases mem_setNode_cases a i m p hp with h₁ | h₁
  · exact h p h₁ c hc
  · rw [h₁] at hc ⊢
    exact h (i, n) (getNode_mem a i n hn) c (hch ▸ hc)

/-- Being script-built only looks at ids of strictly larger rank than a node
whose children lead into the slice, so replacing that node does not matter. -/
theorem builtS_set_irrel (rank : Nat → Nat) :
    ∀ (s : Script) (a : Arena) (i : Nat) (m : DomNode) (slice : List Nat),
    RankedBy rank a →
    (∀ c ∈ slice, rank i < rank c) →
    builtS (setNode a i m) slice s = builtS a slice s := by
  intro s
  induction s with
  | nil =>
    intro a i m slice _ _
    rfl
  | node ty upd cs rest ihcs ihrest =>
    intro a i m slice hr hslice
    cases slice with
    | nil => rfl
    | cons c slice' =>
      have hic : i ≠ c := by
        intro h
        exact Nat.lt_irrefl _ (h ▸ hslice c (List.mem_cons_self _ _))
      have hgc : getNode (setNode a i m) c = getNode a c :=
        getNode_setNode_ne a i c m hic
      show ((match getNode (setNode a i m) c with
             | none => false
             | some n =>
               n.ty == ty && (upd n.state == n.state) && (n.nextChild == scriptLength cs)
                 && (n.children.length == scriptLength cs)
                 && builtS (setNode a i m) n.children cs)
            && builtS (setNode a i m) slice' rest) =
          ((match getNode a c with
             | none => false
             | some n =>
               n.ty == ty && (upd n.state == n.state) && (n.nextChild == scriptLength cs)
                 && (n.children.length == scriptLength cs)
                 && builtS a n.children cs)
            && builtS a slice' rest)
      rw [hgc]
      have hrest : builtS (setNode a i m) slice' rest = builtS a slice' rest :=
        ihrest a i m slice' hr (fun g hg => hslice g (List.mem_cons_of_mem _ hg))
      cases hn : getNode a c with
      | none => rw [hrest]
      | some n =>
        have hcs : builtS (setNode a i m) n.children cs = builtS a n.children cs := by
          refine ihcs a i m n.children hr ?_
          intro g hg
          exact Nat.lt_trans (hslice c (List.mem_cons_self _ _)) (rankedBy_lt hr hn hg)
        dsimp only
        rw [hrest, hcs]

theorem get?_of_drop_eq_cons : ∀ (l : List Nat) (k : Nat) (c : Nat) (t : List Nat),
    l.drop k = c :: t → l.get? k = some c := by
  intro l
  induction l with
  | nil =>
    intro k c t h
    rw [List.drop_nil] at h
    exact List.noConfusion h
  | cons x xs ih =>
    intro k c t h
    cases k with
    | zero =>
      rw [List.drop_zero] at h
      obtain ⟨h1, _⟩ := List.cons.injEq _ _ _ _ ▸ h
      rw [h1]
      rfl
    | succ k =>
      exact ih k c t h

theorem drop_succ_of_drop_eq_cons : ∀ (l : List Nat) (k : Nat) (c : Nat) (t : List Nat),
    l.drop k = c :: t → l.drop (k + 1) = t := by
  intro l
  induction l with
  | nil =>
    intro k c t h
    rw [List.drop_nil] at h
    exact List.noConfusion h
  | cons x xs ih =>
    intro k c t h
    cases k with
    | zero =>
      have h' : x :: xs = c :: t := h
      injection h' with h1 h2
    | succ k => exact ih k c t h

theorem exec_append : ∀ (xs ys : List Instr) (d : Dom),
    exec d (xs ++ ys) =
      match exec d xs with
      | none => none
      | some d₁ => exec d₁ ys := by
  intro xs
  induction xs with
  | nil =>
    intro ys d
    rfl
  | cons x xs ih =>
    intro ys d
    show (match instrStep d x with
          | none => none
          | some d₁ => exec d₁ (xs ++ ys)) =
        (match (match instrStep d x with
                | none => none
                | some d₁ => exec d₁ xs) with
         | none => none
         | some d₁ => exec d₁ ys)
    cases instrStep d x with
    | none => rfl
    | some d₁ =>
      dsimp only
      exact ih ys d₁

theorem exec_cons (d : Dom) (i : Instr) (is : List Instr) :
    exec d (i :: is) =
      match instrStep d i with
      | none => none
      | some d₁ => exec d₁ is := rfl

/-- Declaring a script over the subtree slice it already built is the
identity, advancing only the parent's cursor: every slot reuses its node in
place, every cursor rewinds to zero and back to its child count, no node is
created or destroyed. -/
theorem exec_built (rank : Nat → Nat) :
    ∀ (s : Script) (d : Dom) (pid : Nat) (p : DomNode),
    RankedBy rank d.nodes →
    getNode d.nodes pid = some p →
    domCurrent d = pid →
    builtS d.nodes (p.children.drop p.nextChild) s = true →
    exec d (flattenS s) =
      some { d with
               nodes := setNode d.nodes pid
                 ({ p with nextChild := p.nextChild + scriptLength s }) } := by
  intro s
  induction s with
  | nil =>
    intro d pid p hr hp hcur hb
    have hpeta : ({ p with nextChild := p.nextChild + scriptLength Script.nil } : DomNode)
        = p := rfl
    show some d = _
    rw [hpeta, setNode_self d.nodes pid p hp]
  | node ty upd cs rest ihcs ihrest =>
    intro d pid p hr hp hcur hb
    cases hslice : p.children.drop p.nextChild with
    | nil =>
      rw [hslice] at hb
      exact absurd hb (by simp [builtS])
    | cons c slice' =>
      rw [hslice] at hb
      have hunf : builtS d.nodes (c :: slice') (.node ty upd cs rest) =
          ((match getNode d.nodes c with
            | none => false
            | some n =>
              n.ty == ty && (upd n.state == n.state) && (n.nextChild == scriptLength cs)
                && (n.children.length == scriptLength cs) && builtS d.nodes n.children cs)
           && builtS d.nodes slice' rest) := rfl
      rw [hunf] at hb
      cases hget : getNode d.nodes c with
      | none =>
        rw [hget] at hb
        simp at hb
      | some n =>
        rw [hget] at hb
        dsimp only at hb
        rw [Bool.and_eq_true, Bool.and_eq_true, Bool.and_eq_true, Bool.and_eq_true,
          Bool.and_eq_true, beq_iff_eq, beq_iff_eq, beq_iff_eq, beq_iff_eq] at hb
        obtain ⟨⟨⟨⟨⟨hty, hupd⟩, hcursor⟩, hlen⟩, hbcs⟩, hbrest⟩ := hb
        have hcmem : c ∈ p.children := by
          refine List.drop_subset p.nextChild p.children ?_
          rw [hslice]
          exact List.mem_cons_self _ _
        have hpidc : rank pid < rank c := rankedBy_lt hr hp hcmem
        have hcne : pid ≠ c := fun h => Nat.lt_irrefl _ (h ▸ hpidc)
        have hgetq : p.children.get? p.nextChild = some c :=
          get?_of_drop_eq_cons _ _ _ _ hslice
        have hgc₀ : getNode (setNode d.nodes pid ({ p with nextChild := p.nextChild + 1 })) c
            = some n := by
          rw [getNode_setNode_ne d.nodes pid c _ hcne]
          exact hget
        -- the begin step reuses the node in place
        have hbegin : beginWidget d ty upd =
            some ({ d with
                      nodes := setNode
                        (setNode d.nodes pid ({ p with nextChild := p.nextChild + 1 })) c
                        ({ n with nextChild := 0, state := upd n.state })
                      stack := c :: d.stack }, c) := by
          unfold beginWidget
          dsimp only
          rw [hcur, hp]
          dsimp only
          rw [hgetq]
          dsimp only
          rw [hgc₀]
          dsimp only
          rw [if_pos hty]
        have hstep₁ : instrStep d (Instr.begin ty upd) =
            some { d with
                     nodes := setNode
                       (setNode d.nodes pid ({ p with nextChild := p.nextChild + 1 })) c
                       ({ n with nextChild := 0, state := upd n.state })
                     stack := c :: d.stack } := by
          unfold instrStep
          dsimp only
          rw [hbegin]
          rfl
        -- ranked invariants for the modified arenas
        have hr₀ : RankedBy rank (setNode d.nodes pid ({ p with nextChild := p.nextChild + 1 })) :=
          ranked_setNode hr hp rfl
        have hr₁ : RankedBy rank (setNode
            (setNode d.nodes pid ({ p with nextChild := p.nextChild + 1 })) c
            ({ n with nextChild := 0, state := upd n.state })) :=
          ranked_setNode hr₀ hgc₀ rfl
        -- the children's subtrees are untouched by the two cursor writes
        have hbcs' : builtS (setNode
            (setNode d.nodes pid ({ p with nextChild := p.nextChild + 1 })) c
            ({ n with nextChild := 0, state := upd n.state })) n.children cs = true := by
          rw [builtS_set_irrel rank cs _ c _ n.children hr₀
            (fun g hg => rankedBy_lt hr₀ hgc₀ hg)]
          rw [builtS_set_irrel rank cs d.nodes pid _ n.children hr
            (fun g hg => Nat.lt_trans hpidc (rankedBy_lt hr hget hg))]
          exact hbcs
        -- run the children by the induction hypothesis
        have hIH : exec { d with
              nodes := setNode
                (setNode d.nodes pid ({ p with nextChild := p.nextChild + 1 })) c
                ({ n with nextChild := 0, state := upd n.state })
              stack := c :: d.stack } (flattenS cs) =
            some { d with
                     nodes := setNode
                       (setNode
                         (setNode d.nodes pid ({ p with nextChild := p.nextChild + 1 })) c
                         ({ n with nextChild := 0, state := upd n.state })) c
                       ({ { n with nextChild := 0, state := upd n.state } with
                           nextChild := 0 + scriptLength cs })
                     stack := c :: d.stack } := by
          exact ihcs _ c { n with nextChild := 0, state := upd n.state } hr₁
            (getNode_setNode_self _ c n _ hgc₀) rfl hbcs'
        -- collapse the double write: the child node returns to exactly n
        have hnode_eq : ({ { n with nextChild := 0, state := upd n.state } with
            nextChild := 0 + scriptLength cs } : DomNode) = n := by
          show ({ n with state := upd n.state, nextChild := 0 + scriptLength cs }
            : DomNode) = n
          rw [hupd, Nat.zero_add, ← hcursor]
        have hIH' : exec { d with
              nodes := setNode
                (setNode d.nodes pid ({ p with nextChild := p.nextChild + 1 })) c
                ({ n with nextChild := 0, state := upd n.state })
              stack := c :: d.stack } (flattenS cs) =
            some { d with
                     nodes := setNode d.nodes pid ({ p with nextChild := p.nextChild + 1 })
                     stack := c :: d.stack } := by
          rw [hIH, hnode_eq, setNode_setNode, setNode_self _ c n hgc₀]
        -- the end step trims nothing
        have hnlt : ¬ n.nextChild < n.children.length := by
          rw [hcursor, hlen]
          exact Nat.lt_irrefl _
        have hstop : instrStep { d with
              nodes := setNode d.nodes pid ({ p with nextChild := p.nextChild + 1 })
              stack := c :: d.stack } Instr.stop =
            some { d with
                     nodes := setNode d.nodes pid ({ p with nextChild := p.nextChild + 1 }) } := by
          unfold instrStep
          dsimp only
          unfold endWidget
          dsimp only
          rw [if_pos rfl]
          unfold trimChildren
          rw [hgc₀]
          dsimp only
          rw [if_neg hnlt]
        -- run the remaining siblings by the induction hypothesis
        have hdrop' : p.children.drop (p.nextChild + 1) = slice' :=
          drop_succ_of_drop_eq_cons _ _ _ _ hslice
        have hbrest' : builtS (setNode d.nodes pid ({ p with nextChild := p.nextChild + 1 }))
            slice' rest = true := by
          rw [builtS_set_irrel rank rest d.nodes pid _ slice' hr ?_]
          · exact hbrest
          · intro g hg
            refine rankedBy_lt hr hp (List.drop_subset p.nextChild p.children ?_)
            rw [hslice]
            exact List.mem_cons_of_mem _ hg
        have hIHrest : exec { d with
              nodes := setNode d.nodes pid ({ p with nextChild := p.nextChild + 1 }) }
            (flattenS rest) =
            some { d with
                     nodes := setNode
                       (setNode d.nodes pid ({ p with nextChild := p.nextChild + 1 })) pid
                       ({ { p with nextChild := p.nextChild + 1 } with
                           nextChild := (p.nextChild + 1) + scriptLength rest }) } := by
          refine ihrest _ pid { p with nextChild := p.nextChild + 1 } hr₀
            (getNode_setNode_self _ pid p _ hp) hcur ?_
          show builtS (setNode d.nodes pid ({ p with nextChild := p.nextChild + 1 }))
            (p.children.drop (p.nextChild + 1)) rest = true
          rw [hdrop']
          exact hbrest'
        have harith : (p.nextChild + 1) + scriptLength rest =
            p.nextChild + scriptLength (Script.node ty upd cs rest) := by
          show (p.nextChild + 1) + scriptLength rest = p.nextChild + (scriptLength rest + 1)
          omega
        -- assemble the whole run
        show exec d (Instr.begin ty upd :: (flattenS cs ++ Instr.stop :: flattenS rest)) = _
        rw [exec_cons, hstep₁]
        dsimp only
        rw [exec_append, hIH']
        dsimp only
        rw [exec_cons, hstop]
        dsimp only
        rw [hIHrest, setNode_setNode]
        have hfinal : ({ { p with nextChild := p.nextChild + 1 } with
            nextChild := (p.nextChild + 1) + scriptLength rest } : DomNode) =
            { p with nextChild := p.nextChild + scriptLength (Script.node ty upd cs rest) } := by
          show ({ p with nextChild := (p.nextChild + 1) + scriptLength rest } : DomNode) = _
          rw [harith]
        rw [hfinal]

/-- C8 (amended): when the tree entering the frame is exactly the one the
script built — each slot holds a node of the declared type whose state the
frame's update routine leaves unchanged, with cursors settled at their child
counts, in an acyclic arena (as after any frame of the same script with no
type-mismatch replacement) — then re-declaring the identical script succeeds
and is the identity: no node ids are created (`nextId` unchanged), none are
destroyed and the removed-list is empty after `finish`, and every node's
content is unchanged.  (The un-amended claim fails when the previous frame
performed a type-mismatch replacement: see the counterexample.) -/
theorem c8_idempotent (rank : Nat → Nat) (d : Dom) (s : Script) (r : DomNode)
    (hr : RankedBy rank d.nodes)
    (hroot : getNode d.nodes d.root = some r)
    (hcurs : r.nextChild = scriptLength s)
    (hlen : r.children.length = scriptLength s)
    (hb : builtS d.nodes r.children s = true)
    (hst : d.stack = []) :
    frame d s = some { d with removedNodes := [] } := by
  unfold frame domStart
  rw [hroot]
  dsimp only
  have hr₀ : RankedBy rank (setNode d.nodes d.root ({ r with nextChild := 0 })) :=
    ranked_setNode hr hroot rfl
  have hcur₀ : domCurrent { d with
      nodes := setNode d.nodes d.root ({ r with nextChild := 0 }) } = d.root := by
    show d.stack.headD d.root = d.root
    rw [hst]
    rfl
  have hb₀ : builtS (setNode d.nodes d.root ({ r with nextChild := 0 }))
      r.children s = true := by
    rw [builtS_set_irrel rank s d.nodes d.root _ r.children hr
      (fun g hg => rankedBy_lt hr hroot hg)]
    exact hb
  have hexec := exec_built rank s
    { d with nodes := setNode d.nodes d.root ({ r with nextChild := 0 }) }
    d.root { r with nextChild := 0 } hr₀
    (getNode_setNode_self d.nodes d.root r _ hroot) hcur₀ hb₀
  have hnode : ({ { r with nextChild := 0 } with
      nextChild := 0 + scriptLength s } : DomNode) = r := by
    show ({ r with nextChild := 0 + scriptLength s } : DomNode) = r
    rw [Nat.zero_add, ← hcurs]
  rw [hnode, setNode_setNode, setNode_self d.nodes d.root r hroot] at hexec
  rw [hexec]
  dsimp only
  unfold domFinish trimChildren
  dsimp only
  rw [hroot]
  dsimp only
  have hnlt : ¬ r.nextChild < r.children.length := by
    rw [hcurs, hlen]
    exact Nat.lt_irrefl _
  rw [if_neg hnlt]

theorem getNode_eq_of_mem : ∀ (a : Arena), (keysOf a).Nodup →
    ∀ (i : Nat) (n : DomNode), (i, n) ∈ a → getNode a i = some n := by
  intro a hnd i n hmem
  induction a with
  | nil => simp at hmem
  | cons p rest ih =>
    obtain ⟨k, v⟩ := p
    rw [List.mem_cons] at hmem
    have hnd' : (keysOf rest).Nodup := (List.nodup_cons.mp hnd).2
    rcases hmem with h | h
    · obtain ⟨h1, h2⟩ := Prod.mk.injEq _ _ _ _ ▸ h
      simp [getNode, h1, h2]
    · by_cases hki : k = i
      · exfalso
        subst hki
        exact (List.nodup_cons.mp hnd).1 (List.mem_map_of_mem (fun p => p.1) h)
      · simp [getNode, hki]
        exact ih hnd' h

theorem wfA_nodup {a : Arena} {root bound : Nat} (h : WfArena a root bound) :
    (keysOf a).Nodup := h.1

theorem wfA_root {a : Arena} {root bound : Nat} (h : WfArena a root bound) :
    ∃ r, getNode a root = some r ∧ r.parent = none := by
  obtain ⟨p, hp, h1, h2⟩ := h.2.1
  obtain ⟨k, v⟩ := p
  exact ⟨v, h1 ▸ getNode_eq_of_mem a h.1 k v hp, h2⟩

theorem wfA_consist {a : Arena} {root bound : Nat} (h : WfArena a root bound)
    {i : Nat} {n : DomNode} (hi : getNode a i = some n) {c : Nat}
    (hc : c ∈ n.children) :
    ∃ m, getNode a c = some m ∧ m.parent = some i := by
  obtain ⟨q, hq, h1, h2⟩ := h.2.2.1 (i, n) (getNode_mem a i n hi) c hc
  obtain ⟨k, v⟩ := q
  exact ⟨v, h1 ▸ getNode_eq_of_mem a h.1 k v hq, h2⟩

theorem wfA_unref_root {a : Arena} {root bound : Nat} (h : WfArena a root bound)
    {i : Nat} {n : DomNode} (hi : getNode a i = some n) :
    root ∉ n.children :=
  h.2.2.2.1 (i, n) (getNode_mem a i n hi)

theorem wfA_children_nodup {a : Arena} {root bound : Nat} (h : WfArena a root bound)
    {i : Nat} {n : DomNode} (hi : getNode a i = some n) :
    n.children.Nodup :=
  h.2.2.2.2.1 (i, n) (getNode_mem a i n hi)

theorem wfA_cross {a : Arena} {root bound : Nat} (h : WfArena a root bound)
    {i j : Nat} {n m : DomNode} (hi : getNode a i = some n)
    (hj : getNode a j = some m) {c : Nat} (hcn : c ∈ n.children)
    (hcm : c ∈ m.children) : i = j :=
  h.2.2.2.2.2.1 (i, n) (getNode_mem a i n hi) (j, m) (getNode_mem a j m hj) c hcn hcm

theorem wfA_parentRef {a : Arena} {root bound : Nat} (h : WfArena a root bound)
    {i : Nat} {n : DomNode} (hi : getNode a i = some n) (hroot : i ≠ root) :
    ∃ j m, getNode a j = some m ∧ n.parent = some j ∧ i ∈ m.children := by
  obtain ⟨q, hq, h1, h2⟩ := h.2.2.2.2.2.2.1 (i, n) (getNode_mem a i n hi) hroot
  obtain ⟨k, v⟩ := q
  exact ⟨k, v, getNode_eq_of_mem a h.1 k v hq, h1, h2⟩

theorem wfA_bound {a : Arena} {root bound : Nat} (h : WfArena a root bound)
    {i : Nat} {n : DomNode} (hi : getNode a i = some n) : i < bound :=
  h.2.2.2.2.2.2.2 (i, n) (getNode_mem a i n hi)

theorem wfA_child_bound {a : Arena} {root bound : Nat} (h : WfArena a root bound)
    {i : Nat} {n : DomNode} (hi : getNode a i = some n) {c : Nat}
    (hc : c ∈ n.children) : c < bound := by
  obtain ⟨m, hm, _⟩ := wfA_consist h hi hc
  exact wfA_bound h hm

/-! ### Arena bookkeeping lemmas for the invariant proofs -/

theorem keysOf_setNode : ∀ (a : Arena) (i : Nat) (m : DomNode),
    keysOf (setNode a i m) = keysOf a := by
  intro a i m
  induction a with
  | nil => simp [setNode]
  | cons p rest ih =>
    obtain ⟨k, v⟩ := p
    by_cases hki : k = i
    · simp [setNode, hki, keysOf]
    · simp [setNode, hki, keysOf] at ih ⊢
      exact ih

theorem keysOf_removeNode_sublist : ∀ (a : Arena) (i : Nat),
    (keysOf (removeNode a i)).Sublist (keysOf a) := by
  intro a i
  induction a with
  | nil => simp [removeNode, keysOf]
  | cons p rest ih =>
    obtain ⟨k, v⟩ := p
    by_cases hki : k = i
    · simp only [removeNode, hki, if_true, keysOf, List.map_cons]
      exact ih.cons _
    · simp only [removeNode, hki, if_false, keysOf, List.map_cons]
      exact ih.cons₂ _

theorem nodup_keys_removeNode {a : Arena} {i : Nat} (h : (keysOf a).Nodup) :
    (keysOf (removeNode a i)).Nodup :=
  h.sublist (keysOf_removeNode_sublist a i)

theorem trimLoopF_nodup_keys : ∀ (fuel : Nat) (nodes : Arena) (removed queue : List Nat)
    (nodes' : Arena) (removed' : List Nat),
    trimLoopF fuel nodes removed queue = some (nodes', removed') →
    (keysOf nodes).Nodup → (keysOf nodes').Nodup := by
  intro fuel
  induction fuel with
  | zero =>
    intro nodes removed queue nodes' removed' heq hnd
    cases queue with
    | nil =>
      simp only [trimLoopF, Option.some.injEq, Prod.mk.injEq] at heq
      exact heq.1 ▸ hnd
    | cons q qs => simp [trimLoopF] at heq
  | succ fuel ih =>
    intro nodes removed queue nodes' removed' heq hnd
    cases queue with
    | nil =>
      simp only [trimLoopF, Option.some.injEq, Prod.mk.injEq] at heq
      exact heq.1 ▸ hnd
    | cons cid qs =>
      cases hget : getNode nodes cid with
      | none => simp [trimLoopF, hget] at heq
      | some child =>
        simp only [trimLoopF, hget] at heq
        exact ih _ _ _ _ _ heq (nodup_keys_removeNode hnd)

theorem getNode_insertNode_self (a : Arena) (i : Nat) (n : DomNode) :
    getNode (insertNode a i n) i = some n := by
  simp [insertNode, getNode]

theorem getNode_insertNode_ne (a : Arena) (i j : Nat) (n : DomNode) (h : i ≠ j) :
    getNode (insertNode a i n) j = getNode a j := by
  simp [insertNode, getNode, h]

theorem keysOf_insertNode (a : Arena) (i : Nat) (n : DomNode) :
    keysOf (insertNode a i n) = i :: keysOf a := by
  simp [insertNode, keysOf]

theorem nodup_take_drop_disjoint {l : List Nat} (h : l.Nodup) {k : Nat} {c : Nat}
    (h₁ : c ∈ l.take k) (h₂ : c ∈ l.drop k) : False := by
  have happ : (l.take k ++ l.drop k).Nodup := by
    rw [List.take_append_drop]
    exact h
  exact List.disjoint_of_nodup_append happ h₁ h₂

/-- Trimming a node's stale children preserves the node invariant. -/
theorem trim_preserves_wf {a : Arena} {root bound : Nat} {removed : List Nat}
    {id : Nat} {a' : Arena} {removed' : List Nat}
    (hwf : WfArena a root bound)
    (htrim : trimChildren a removed id = some (a', removed')) :
    WfArena a' root bound := by
  unfold trimChildren at htrim
  cases hn : getNode a id with
  | none =>
    rw [hn] at htrim
    exact Option.noConfusion htrim
  | some n =>
    rw [hn] at htrim
    by_cases hlt : n.nextChild < n.children.length
    · simp only [hlt, if_true] at htrim
      set stale := n.children.drop n.nextChild with hstale
      set n₁ : DomNode := { n with children := n.children.take n.nextChild } with hn₁
      set a₁ := setNode a id n₁ with ha₁
      obtain ⟨pops, hrm, hnd, hpres, hgone, hreach1, hreach2, hout⟩ :=
        trimLoopF_spec _ _ _ _ _ _ (Nat.lt_succ_self _) htrim
      have hF0 : getNode a₁ id = some n₁ := getNode_setNode_self a id n n₁ hn
      have hF1 : ∀ j, j ≠ id → getNode a₁ j = getNode a j := by
        intro j hj
        exact getNode_setNode_ne a id j n₁ (fun h => hj h.symm)
      -- children of a₁-nodes are children of the corresponding a-node
      have hF2 : ∀ q m', getNode a₁ q = some m' → ∀ c ∈ m'.children,
          ∃ m, getNode a q = some m ∧ c ∈ m.children := by
        intro q m' hq c hc
        by_cases hqid : q = id
        · subst hqid
          rw [hF0] at hq
          cases hq
          exact ⟨n, hn, List.take_subset _ _ hc⟩
        · rw [hF1 q hqid] at hq
          exact ⟨m', hq, hc⟩
      -- survivors were untouched and are not reachable from the stale slice
      have hF3 : ∀ i m, getNode a' i = some m →
          ¬ Reach a₁ stale i ∧ getNode a₁ i = some m := by
        intro i m hi
        have hnr : ¬ Reach a₁ stale i := by
          intro hr
          rw [hgone i (hreach1 i hr)] at hi
          exact Option.noConfusion hi
        exact ⟨hnr, (hout i hnr).symm.trans hi⟩
      -- stale ids sit in the trimmed node's full child list
      have hstale_sub : ∀ c ∈ stale, c ∈ n.children := fun c hc =>
        List.drop_subset _ _ hc
      -- one-step inversion of reachability, staying at the a₁ level
      have hRinv : ∀ c, Reach a₁ stale c → c ∈ stale ∨
          ∃ q m', Reach a₁ stale q ∧ getNode a₁ q = some m' ∧ c ∈ m'.children := by
        intro c hc
        cases hc with
        | base h => exact Or.inl h
        | step hq hget hmem => exact Or.inr ⟨_, _, hq, hget, hmem⟩
      -- children of survivors are themselves unreachable
      have hF6 : ∀ i m, getNode a' i = some m → ∀ c ∈ m.children,
          ¬ Reach a₁ stale c := by
        intro i m hi c hc hr
        obtain ⟨hnr, hia₁⟩ := hF3 i m hi
        obtain ⟨mi, hmi, hcmi⟩ := hF2 i m hia₁ c hc
        rcases hRinv c hr with h | ⟨q, m', hRq, hq, hcm'⟩
        · have hcn : c ∈ n.children := hstale_sub c h
          have hiid : i = id := wfA_cross hwf hmi hn hcmi hcn
          subst hiid
          rw [hF0] at hia₁
          cases hia₁
          exact nodup_take_drop_disjoint (wfA_children_nodup hwf hn) hc h
        · obtain ⟨mq, hmq, hcmq⟩ := hF2 q m' hq c hcm'
          have : q = i := wfA_cross hwf hmq hmi hcmq hcmi
          exact hnr (this ▸ hRq)
      have hnd' : (keysOf a').Nodup := by
        refine trimLoopF_nodup_keys _ _ _ _ _ _ htrim ?_
        rw [ha₁, keysOf_setNode]
        exact wfA_nodup hwf
      -- the root is not reachable from the stale slice
      have hroot_nr : ¬ Reach a₁ stale root := by
        intro hr
        rcases hRinv root hr with h | ⟨q, m', _, hq, hcm'⟩
        · exact wfA_unref_root hwf hn (hstale_sub root h)
        · obtain ⟨mq, hmq, hcmq⟩ := hF2 q m' hq root hcm'
          exact wfA_unref_root hwf hmq hcmq
      refine ⟨hnd', ?_, ?_, ?_, ?_, ?_, ?_, ?_⟩
      · -- root alive with no parent
        obtain ⟨r, hr, hrpar⟩ := wfA_root hwf
        have hroot' : ∃ r', getNode a' root = some r' ∧ r'.parent = none := by
          rw [hout root hroot_nr]
          by_cases hidr : id = root
          · subst hidr
            refine ⟨n₁, hF0, ?_⟩
            rw [hn] at hr
            cases hr
            exact hrpar
          · rw [hF1 root (fun h => hidr h.symm)]
            exact ⟨r, hr, hrpar⟩
        obtain ⟨r', hr', hrpar'⟩ := hroot'
        exact ⟨(root, r'), getNode_mem _ _ _ hr', rfl, hrpar'⟩
      · -- children consistency
        intro p hp c hc
        have hpget : getNode a' p.1 = some p.2 := getNode_eq_of_mem a' hnd' p.1 p.2 hp
        obtain ⟨hnrp, hpa₁⟩ := hF3 p.1 p.2 hpget
        have hnrc : ¬ Reach a₁ stale c := hF6 p.1 p.2 hpget c hc
        obtain ⟨mi, hmi, hcmi⟩ := hF2 p.1 p.2 hpa₁ c hc
        obtain ⟨mc, hmc, hmcp⟩ := wfA_consist hwf hmi hcmi
        have hca₁ : ∃ m', getNode a₁ c = some m' ∧ m'.parent = some p.1 := by
          by_cases hcid : c = id
          · subst hcid
            refine ⟨n₁, hF0, ?_⟩
            rw [hn] at hmc
            cases hmc
            exact hmcp
          · rw [hF1 c hcid]
            exact ⟨mc, hmc, hmcp⟩
        obtain ⟨m', hm', hm'p⟩ := hca₁
        have : getNode a' c = some m' := by
          rw [hout c hnrc]
          exact hm'
        exact ⟨(c, m'), getNode_mem _ _ _ this, rfl, hm'p⟩
      · -- nothing references the root
        intro p hp hmem
        have hpget : getNode a' p.1 = some p.2 := getNode_eq_of_mem a' hnd' p.1 p.2 hp
        obtain ⟨_, hpa₁⟩ := hF3 p.1 p.2 hpget
        obtain ⟨mi, hmi, hcmi⟩ := hF2 p.1 p.2 hpa₁ root hmem
        exact wfA_unref_root hwf hmi hcmi
      · -- child lists are duplicate-free
        intro p hp
        have hpget : getNode a' p.1 = some p.2 := getNode_eq_of_mem a' hnd' p.1 p.2 hp
        obtain ⟨_, hpa₁⟩ := hF3 p.1 p.2 hpget
        by_cases hpid : p.1 = id
        · rw [hpid, hF0] at hpa₁
          have h2 := Option.some.inj hpa₁
          rw [← h2]
          exact (wfA_children_nodup hwf hn).sublist (List.take_sublist _ _)
        · rw [hF1 p.1 hpid] at hpa₁
          exact wfA_children_nodup hwf hpa₁
      · -- no id is referenced twice
        intro p hp q hq c hcp hcq
        have hpget : getNode a' p.1 = some p.2 := getNode_eq_of_mem a' hnd' p.1 p.2 hp
        have hqget : getNode a' q.1 = some q.2 := getNode_eq_of_mem a' hnd' q.1 q.2 hq
        obtain ⟨_, hpa₁⟩ := hF3 p.1 p.2 hpget
        obtain ⟨_, hqa₁⟩ := hF3 q.1 q.2 hqget
        obtain ⟨mp, hmp, hcmp⟩ := hF2 p.1 p.2 hpa₁ c hcp
        obtain ⟨mq, hmq, hcmq⟩ := hF2 q.1 q.2 hqa₁ c hcq
        exact wfA_cross hwf hmp hmq hcmp hcmq
      · -- every non-root survivor is referenced by its surviving parent
        intro p hp hproot
        have hpget : getNode a' p.1 = some p.2 := getNode_eq_of_mem a' hnd' p.1 p.2 hp
        obtain ⟨hnrp, hpa₁⟩ := hF3 p.1 p.2 hpget
        -- the original node of p in a, with the same parent field
        have horig : ∃ n₀, getNode a p.1 = some n₀ ∧ n₀.parent = p.2.parent := by
          by_cases hpid : p.1 = id
          · rw [hpid, hF0] at hpa₁
            have h2 := Option.some.inj hpa₁
            exact ⟨n, hpid ▸ hn, by rw [← h2]⟩
          · rw [hF1 p.1 hpid] at hpa₁
            exact ⟨p.2, hpa₁, rfl⟩
        obtain ⟨n₀, hn₀, hn₀p⟩ := horig
        obtain ⟨j, mj, hmj, hjpar, hjmem⟩ := wfA_parentRef hwf hn₀ hproot
        have hnrj : ¬ Reach a₁ stale j := by
          intro hRj
          by_cases hjid : j = id
          · subst hjid
            rw [hn] at hmj
            cases hmj
            by_cases hptake : p.1 ∈ n.children.take n.nextChild
            · exact hnrp (Reach.step hRj hF0 hptake)
            · have hpdrop : p.1 ∈ stale := by
                have : p.1 ∈ n.children.take n.nextChild ++ n.children.drop n.nextChild := by
                  rw [List.take_append_drop]
                  exact hjmem
                rcases List.mem_append.mp this with h | h
                · exact absurd h hptake
                · exact h
              exact hnrp (Reach.base hpdrop)
          · refine hnrp (Reach.step hRj ?_ hjmem)
            rw [hF1 j hjid]
            exact hmj
        have hja' : ∃ m₁, getNode a' j = some m₁ ∧ p.1 ∈ m₁.children := by
          rw [hout j hnrj]
          by_cases hjid : j = id
          · subst hjid
            refine ⟨n₁, hF0, ?_⟩
            rw [hn] at hmj
            cases hmj
            by_cases hptake : p.1 ∈ n.children.take n.nextChild
            · exact hptake
            · exfalso
              have : p.1 ∈ n.children.take n.nextChild ++ n.children.drop n.nextChild := by
                rw [List.take_append_drop]
                exact hjmem
              rcases List.mem_append.mp this with h | h
              · exact absurd h hptake
              · exact hnrp (Reach.base h)
          · rw [hF1 j hjid]
            exact ⟨mj, hmj, hjmem⟩
        obtain ⟨m₁, hm₁, hm₁mem⟩ := hja'
        refine ⟨(j, m₁), getNode_mem _ _ _ hm₁, ?_, hm₁mem⟩
        rw [hn₀p] at hjpar
        exact hjpar
      · -- keys stay below the bound
        intro p hp
        have hpget : getNode a' p.1 = some p.2 := getNode_eq_of_mem a' hnd' p.1 p.2 hp
        obtain ⟨_, hpa₁⟩ := hF3 p.1 p.2 hpget
        by_cases hpid : p.1 = id
        · exact hpid ▸ wfA_bound hwf hn
        · rw [hF1 p.1 hpid] at hpa₁
          exact wfA_bound hwf hpa₁
    · simp only [hlt, if_false, Option.some.injEq, Prod.mk.injEq] at htrim
      exact htrim.1 ▸ hwf

/-- Replacing a node with one having the same children and parent (the
in-place update performed by `begin_widget`'s reuse path, by `Dom::start`, and
by the widget reattachment) preserves the node invariant. -/
theorem wf_set_same_links {a : Arena} {root bound : Nat} {i : Nat} {n m : DomNode}
    (hwf : WfArena a root bound) (hn : getNode a i = some n)
    (hch : m.children = n.children) (hpar : m.parent = n.parent) :
    WfArena (setNode a i m) root bound := by
  set a' := setNode a i m with ha'
  have hself : getNode a' i = some m := getNode_setNode_self a i n m hn
  have hne : ∀ j, j ≠ i → getNode a' j = getNode a j := fun j hj =>
    getNode_setNode_ne a i j m (fun h => hj h.symm)
  have hnd' : (keysOf a').Nodup := by
    rw [ha', keysOf_setNode]
    exact wfA_nodup hwf
  have hup : ∀ j mj, getNode a' j = some mj →
      ∃ nj, getNode a j = some nj ∧ mj.children = nj.children ∧ mj.parent = nj.parent := by
    intro j mj hj
    by_cases hji : j = i
    · subst hji
      rw [hself] at hj
      have h2 := Option.some.inj hj
      exact ⟨n, hn, by rw [← h2, hch], by rw [← h2, hpar]⟩
    · rw [hne j hji] at hj
      exact ⟨mj, hj, rfl, rfl⟩
  have hdown : ∀ j nj, getNode a j = some nj →
      ∃ mj, getNode a' j = some mj ∧ mj.children = nj.children ∧ mj.parent = nj.parent := by
    intro j nj hj
    by_cases hji : j = i
    · subst hji
      rw [hn] at hj
      have h2 := Option.some.inj hj
      exact ⟨m, hself, by rw [← h2, hch], by rw [← h2, hpar]⟩
    · rw [← hne j hji] at hj
      exact ⟨nj, hj, rfl, rfl⟩
  refine ⟨hnd', ?_, ?_, ?_, ?_, ?_, ?_, ?_⟩
  · obtain ⟨r, hr, hrpar⟩ := wfA_root hwf
    obtain ⟨r', hr', _, hrp'⟩ := hdown root r hr
    exact ⟨(root, r'), getNode_mem _ _ _ hr', rfl, hrp'.trans hrpar⟩
  · intro p hp c hc
    have hpget : getNode a' p.1 = some p.2 := getNode_eq_of_mem a' hnd' p.1 p.2 hp
    obtain ⟨np, hnp, hchp, _⟩ := hup p.1 p.2 hpget
    obtain ⟨mc, hmc, hmcp⟩ := wfA_consist hwf hnp (hchp ▸ hc)
    obtain ⟨mc', hmc', _, hmcp'⟩ := hdown c mc hmc
    exact ⟨(c, mc'), getNode_mem _ _ _ hmc', rfl, hmcp'.trans hmcp⟩
  · intro p hp hmem
    have hpget : getNode a' p.1 = some p.2 := getNode_eq_of_mem a' hnd' p.1 p.2 hp
    obtain ⟨np, hnp, hchp, _⟩ := hup p.1 p.2 hpget
    exact wfA_unref_root hwf hnp (hchp ▸ hmem)
  · intro p hp
    have hpget : getNode a' p.1 = some p.2 := getNode_eq_of_mem a' hnd' p.1 p.2 hp
    obtain ⟨np, hnp, hchp, _⟩ := hup p.1 p.2 hpget
    rw [hchp]
    exact wfA_children_nodup hwf hnp
  · intro p hp q hq c hcp hcq
    have hpget : getNode a' p.1 = some p.2 := getNode_eq_of_mem a' hnd' p.1 p.2 hp
    have hqget : getNode a' q.1 = some q.2 := getNode_eq_of_mem a' hnd' q.1 q.2 hq
    obtain ⟨np, hnp, hchp, _⟩ := hup p.1 p.2 hpget
    obtain ⟨nq, hnq, hchq, _⟩ := hup q.1 q.2 hqget
    exact wfA_cross hwf hnp hnq (hchp ▸ hcp) (hchq ▸ hcq)
  · intro p hp hproot
    have hpget : getNode a' p.1 = some p.2 := getNode_eq_of_mem a' hnd' p.1 p.2 hp
    obtain ⟨np, hnp, _, hparp⟩ := hup p.1 p.2 hpget
    obtain ⟨j, mj, hmj, hjpar, hjmem⟩ := wfA_parentRef hwf hnp hproot
    obtain ⟨mj', hmj', hchj', _⟩ := hdown j mj hmj
    exact ⟨(j, mj'), getNode_mem _ _ _ hmj', hparp.trans hjpar, hchj' ▸ hjmem⟩
  · intro p hp
    have hpget : getNode a' p.1 = some p.2 := getNode_eq_of_mem a' hnd' p.1 p.2 hp
    obtain ⟨np, hnp, _, _⟩ := hup p.1 p.2 hpget
    exact wfA_bound hwf hnp

/-- Appending a fresh child (id = the fresh-id counter) to a parent whose
cursor has passed the end of its child list — `new_widget`'s push branch —
preserves the node invariant at the bumped bound. -/
theorem wf_append_fresh {a : Arena} {root bound : Nat} {pid : Nat}
    {parent : DomNode} {f : DomNode}
    (hwf : WfArena a root bound) (hp : getNode a pid = some parent)
    (hfpar : f.parent = some pid) (hfch : f.children = []) :
    WfArena (setNode (insertNode a bound f) pid
      { parent with children := parent.children ++ [bound],
                    nextChild := parent.nextChild + 1 }) root (bound + 1) := by
  have hpid_lt : pid < bound := wfA_bound hwf hp
  have hpid_ne : pid ≠ bound := Nat.ne_of_lt hpid_lt
  set parentB : DomNode :=
    { parent with children := parent.children ++ [bound],
                  nextChild := parent.nextChild + 1 } with hparentB
  set a' := setNode (insertNode a bound f) pid parentB with ha'
  have hnew : getNode a' bound = some f := by
    rw [ha', getNode_setNode_ne _ pid bound _ hpid_ne]
    exact getNode_insertNode_self a bound f
  have hpid' : getNode a' pid = some parentB := by
    rw [ha']
    refine getNode_setNode_self _ pid parent _ ?_
    rw [getNode_insertNode_ne a bound pid f (fun h => hpid_ne h.symm)]
    exact hp
  have hother : ∀ j, j ≠ bound → j ≠ pid → getNode a' j = getNode a j := by
    intro j hjb hjp
    rw [ha', getNode_setNode_ne _ pid j _ (fun h => hjp h.symm),
      getNode_insertNode_ne a bound j f (fun h => hjb h.symm)]
  have hroot_lt : root < bound := by
    obtain ⟨r, hr, _⟩ := wfA_root hwf
    exact wfA_bound hwf hr
  have hroot_ne : root ≠ bound := Nat.ne_of_lt hroot_lt
  have hchild_ne : ∀ {q mq c}, getNode a q = some mq → c ∈ mq.children →
      c ≠ bound := by
    intro q mq c hq hc
    exact Nat.ne_of_lt (wfA_child_bound hwf hq hc)
  -- every node of a' either is the fresh one, or is the bumped parent, or was
  -- untouched; in the latter two cases its children are the old ones possibly
  -- with `bound` appended
  have hup : ∀ j mj, getNode a' j = some mj →
      (j = bound ∧ mj = f) ∨
      (j = pid ∧ mj = parentB) ∨
      (j ≠ bound ∧ j ≠ pid ∧ getNode a j = some mj) := by
    intro j mj hj
    by_cases hjb : j = bound
    · subst hjb
      rw [hnew] at hj
      exact Or.inl ⟨rfl, (Option.some.inj hj).symm⟩
    · by_cases hjp : j = pid
      · subst hjp
        rw [hpid'] at hj
        exact Or.inr (Or.inl ⟨rfl, (Option.some.inj hj).symm⟩)
      · rw [hother j hjb hjp] at hj
        exact Or.inr (Or.inr ⟨hjb, hjp, hj⟩)
  have hnd' : (keysOf a').Nodup := by
    rw [ha', keysOf_setNode, keysOf_insertNode]
    refine List.nodup_cons.mpr ⟨?_, wfA_nodup hwf⟩
    intro hmem
    rw [keysOf, List.mem_map] at hmem
    obtain ⟨p, hpmem, hpk⟩ := hmem
    obtain ⟨k, v⟩ := p
    have := getNode_eq_of_mem a (wfA_nodup hwf) k v hpmem
    have hb := wfA_bound hwf this
    have hpk' : k = bound := hpk
    rw [hpk'] at hb
    exact Nat.lt_irrefl _ hb
  refine ⟨hnd', ?_, ?_, ?_, ?_, ?_, ?_, ?_⟩
  · -- the root is alive and parentless
    obtain ⟨r, hr, hrpar⟩ := wfA_root hwf
    by_cases hrp : root = pid
    · refine ⟨(root, parentB), getNode_mem _ _ _ (hrp ▸ hpid'), rfl, ?_⟩
      rw [hrp, hp] at hr
      have h2 := Option.some.inj hr
      show parent.parent = none
      rw [h2]
      exact hrpar
    · refine ⟨(root, r), getNode_mem _ _ _ ?_, rfl, hrpar⟩
      rw [hother root hroot_ne hrp]
      exact hr
  · -- children consistency
    intro p hp' c hc
    have hpget : getNode a' p.1 = some p.2 := getNode_eq_of_mem a' hnd' p.1 p.2 hp'
    rcases hup p.1 p.2 hpget with ⟨hj, hm⟩ | ⟨hj, hm⟩ | ⟨hjb, hjp, hj⟩
    · rw [hm, hfch] at hc
      simp at hc
    · rw [hm] at hc
      rcases List.mem_append.mp hc with hold | hnewc
      · obtain ⟨mc, hmc, hmcp⟩ := wfA_consist hwf hp hold
        by_cases hcp : c = pid
        · refine ⟨(c, parentB), getNode_mem _ _ _ (hcp ▸ hpid'), rfl, ?_⟩
          rw [hcp, hp] at hmc
          have h2 := Option.some.inj hmc
          show parent.parent = some p.1
          rw [h2, hmcp, hj]
        · refine ⟨(c, mc), getNode_mem _ _ _ ?_, rfl, by rw [hmcp, hj]⟩
          rw [hother c (hchild_ne hp hold) hcp]
          exact hmc
      · have hcb : c = bound := by simpa using hnewc
        exact ⟨(c, f), getNode_mem _ _ _ (hcb ▸ hnew), rfl, by rw [hfpar, hj]⟩
    · obtain ⟨mc, hmc, hmcp⟩ := wfA_consist hwf hj hc
      by_cases hcp : c = pid
      · refine ⟨(c, parentB), getNode_mem _ _ _ (hcp ▸ hpid'), rfl, ?_⟩
        rw [hcp, hp] at hmc
        have h2 := Option.some.inj hmc
        show parent.parent = some p.1
        rw [h2, hmcp]
      · refine ⟨(c, mc), getNode_mem _ _ _ ?_, rfl, hmcp⟩
        rw [hother c (hchild_ne hj hc) hcp]
        exact hmc
  · -- nothing references the root
    intro p hp' hmem
    have hpget : getNode a' p.1 = some p.2 := getNode_eq_of_mem a' hnd' p.1 p.2 hp'
    rcases hup p.1 p.2 hpget with ⟨hj, hm⟩ | ⟨hj, hm⟩ | ⟨hjb, hjp, hj⟩
    · rw [hm, hfch] at hmem
      simp at hmem
    · rw [hm] at hmem
      rcases List.mem_append.mp hmem with hold | hnewc
      · exact wfA_unref_root hwf hp hold
      · have : root = bound := by simpa using hnewc
        exact hroot_ne this
    · exact wfA_unref_root hwf hj hmem
  · -- child lists are duplicate-free
    intro p hp'
    have hpget : getNode a' p.1 = some p.2 := getNode_eq_of_mem a' hnd' p.1 p.2 hp'
    rcases hup p.1 p.2 hpget with ⟨hj, hm⟩ | ⟨hj, hm⟩ | ⟨hjb, hjp, hj⟩
    · rw [hm, hfch]
      exact List.nodup_nil
    · rw [hm]
      show (parent.children ++ [bound]).Nodup
      rw [List.nodup_append]
      refine ⟨wfA_children_nodup hwf hp, List.nodup_singleton _, ?_⟩
      intro c hcold hcnew
      have : c = bound := by simpa using hcnew
      exact hchild_ne hp hcold this
    · exact wfA_children_nodup hwf hj
  · -- no id is referenced twice
    intro p hp' q hq' c hcp hcq
    have hpget : getNode a' p.1 = some p.2 := getNode_eq_of_mem a' hnd' p.1 p.2 hp'
    have hqget : getNode a' q.1 = some q.2 := getNode_eq_of_mem a' hnd' q.1 q.2 hq'
    -- normalize each reference to either an a-level reference or the fresh one
    have hsplit : ∀ j mj, getNode a' j = some mj → ∀ c₀, c₀ ∈ mj.children →
        (∃ nj, getNode a j = some nj ∧ c₀ ∈ nj.children) ∨ (j = pid ∧ c₀ = bound) := by
      intro j mj hj c₀ hc₀
      rcases hup j mj hj with ⟨hjb, hm⟩ | ⟨hjp, hm⟩ | ⟨_, _, hj'⟩
      · rw [hm, hfch] at hc₀
        simp at hc₀
      · rw [hm] at hc₀
        rcases List.mem_append.mp hc₀ with hold | hnewc
        · exact Or.inl ⟨parent, hjp ▸ hp, hold⟩
        · exact Or.inr ⟨hjp, by simpa using hnewc⟩
      · exact Or.inl ⟨mj, hj', hc₀⟩
    rcases hsplit p.1 p.2 hpget c hcp with ⟨np, hnp, hcnp⟩ | ⟨hpp, hcb⟩
    · rcases hsplit q.1 q.2 hqget c hcq with ⟨nq, hnq, hcnq⟩ | ⟨hqp, hcb⟩
      · exact wfA_cross hwf hnp hnq hcnp hcnq
      · exact absurd hcb (hchild_ne hnp hcnp)
    · rcases hsplit q.1 q.2 hqget c hcq with ⟨nq, hnq, hcnq⟩ | ⟨hqp, _⟩
      · exact absurd hcb (hchild_ne hnq hcnq)
      · rw [hpp, hqp]
  · -- every non-root node is referenced by its parent
    intro p hp' hproot
    have hpget : getNode a' p.1 = some p.2 := getNode_eq_of_mem a' hnd' p.1 p.2 hp'
    rcases hup p.1 p.2 hpget with ⟨hj, hm⟩ | ⟨hj, hm⟩ | ⟨hjb, hjp, hj⟩
    · refine ⟨(pid, parentB), getNode_mem _ _ _ hpid', ?_, ?_⟩
      · rw [hm, hfpar]
      · show p.1 ∈ parent.children ++ [bound]
        rw [hj]
        simp
    · -- the bumped parent keeps its own parent reference
      obtain ⟨j, mj, hmj, hjpar, hjmem⟩ := wfA_parentRef hwf hp (hj ▸ hproot)
      have hparUp : p.2.parent = some j := by
        rw [hm]
        exact hjpar
      by_cases hjp : j = pid
      · refine ⟨(j, parentB), getNode_mem _ _ _ (hjp ▸ hpid'), hparUp, ?_⟩
        show p.1 ∈ parent.children ++ [bound]
        rw [hjp, hp] at hmj
        have h2 := Option.some.inj hmj
        rw [hj]
        exact List.mem_append_left _ (by rw [← h2] at hjmem; exact hjmem)
      · have hjb : j ≠ bound := Nat.ne_of_lt (wfA_bound hwf hmj)
        refine ⟨(j, mj), getNode_mem _ _ _ ?_, hparUp, hj ▸ hjmem⟩
        rw [hother j hjb hjp]
        exact hmj
    · obtain ⟨j, mj, hmj, hjpar, hjmem⟩ := wfA_parentRef hwf hj hproot
      by_cases hjp : j = pid
      · refine ⟨(j, parentB), getNode_mem _ _ _ (hjp ▸ hpid'), hjpar, ?_⟩
        show p.1 ∈ parent.children ++ [bound]
        rw [hjp, hp] at hmj
        have h2 := Option.some.inj hmj
        exact List.mem_append_left _ (by rw [← h2] at hjmem; exact hjmem)
      · have hjbne : j ≠ bound := Nat.ne_of_lt (wfA_bound hwf hmj)
        refine ⟨(j, mj), getNode_mem _ _ _ ?_, hjpar, hjmem⟩
        rw [hother j hjbne hjp]
        exact hmj
  · -- keys stay below the bumped bound
    intro p hp'
    have hpget : getNode a' p.1 = some p.2 := getNode_eq_of_mem a' hnd' p.1 p.2 hp'
    rcases hup p.1 p.2 hpget with ⟨hj, _⟩ | ⟨hj, _⟩ | ⟨_, _, hj⟩
    · rw [hj]
      exact Nat.lt_succ_self _
    · rw [hj]
      exact Nat.lt_succ_of_lt hpid_lt
    · exact Nat.lt_succ_of_lt (wfA_bound hwf hj)

/-- `begin_widget` preserves the node invariant whenever the slot it
reconciles is empty or holds a child of the declared type (i.e. outside the
type-mismatch path). -/
theorem begin_preserves_wf {d : Dom} {ty : Nat} {upd : Nat → Nat} {d' : Dom}
    {id : Nat} (hwf : WfDom d) (hsc : slotCompatible d ty)
    (hbeg : beginWidget d ty upd = some (d', id)) : WfDom d' := by
  have hnomis : ∀ p cid node, getNode d.nodes (domCurrent d) = some p →
      p.children.get? p.nextChild = some cid →
      getNode d.nodes cid = some node → node.ty = ty := by
    intro p cid node hp hslot hcg
    exact hsc (domCurrent d, p) (getNode_mem _ _ _ hp) rfl cid hslot
      (cid, node) (getNode_mem _ _ _ hcg) rfl
  unfold beginWidget at hbeg
  dsimp only at hbeg
  cases hp : getNode d.nodes (domCurrent d) with
  | none =>
    rw [hp] at hbeg
    exact Option.noConfusion hbeg
  | some parent =>
    rw [hp] at hbeg
    dsimp only at hbeg
    cases hslot : parent.children.get? parent.nextChild with
    | some cid =>
      rw [hslot] at hbeg
      dsimp only at hbeg
      have hwf₀ : WfArena (setNode d.nodes (domCurrent d)
          { parent with nextChild := parent.nextChild + 1 }) d.root d.nextId :=
        wf_set_same_links hwf hp rfl rfl
      cases hcg : getNode (setNode d.nodes (domCurrent d)
          { parent with nextChild := parent.nextChild + 1 }) cid with
      | none =>
        rw [hcg] at hbeg
        exact Option.noConfusion hbeg
      | some node =>
        rw [hcg] at hbeg
        dsimp only at hbeg
        have hty : node.ty = ty := by
          by_cases hcp : cid = domCurrent d
          · have : getNode (setNode d.nodes (domCurrent d)
                { parent with nextChild := parent.nextChild + 1 }) cid =
                some { parent with nextChild := parent.nextChild + 1 } := by
              rw [hcp]
              exact getNode_setNode_self _ _ parent _ hp
            rw [this] at hcg
            have h2 := Option.some.inj hcg
            have := hnomis parent cid parent hp hslot (hcp ▸ hp)
            rw [← h2]
            exact this
          · rw [getNode_setNode_ne d.nodes (domCurrent d) cid _
              (fun h => hcp h.symm)] at hcg
            exact hnomis parent cid node hp hslot hcg
        rw [if_pos hty] at hbeg
        have h2 := Option.some.inj hbeg
        have hd' : d' = { d with
            nodes := setNode (setNode d.nodes (domCurrent d)
              { parent with nextChild := parent.nextChild + 1 }) cid
              { node with nextChild := 0, state := upd node.state }
            stack := cid :: d.stack } := by
          have := congrArg Prod.fst h2
          exact this.symm
        rw [hd']
        exact wf_set_same_links hwf₀ hcg rfl rfl
    | none =>
      rw [hslot] at hbeg
      dsimp only [newWidget] at hbeg
      rw [hp] at hbeg
      dsimp only at hbeg
      have hge : ¬ parent.nextChild < parent.children.length := by
        intro hlt
        rw [List.get?_eq_get hlt] at hslot
        exact Option.noConfusion hslot
      rw [if_neg hge] at hbeg
      have hwf₂ : WfArena (setNode (insertNode d.nodes d.nextId
          { ty := ty, state := 0, parent := some (domCurrent d), children := [],
            nextChild := 0 }) (domCurrent d)
          { parent with children := parent.children ++ [d.nextId],
                        nextChild := parent.nextChild + 1 }) d.root (d.nextId + 1) :=
        wf_append_fresh hwf hp rfl rfl
      have hpid_ne : domCurrent d ≠ d.nextId := Nat.ne_of_lt (wfA_bound hwf hp)
      have hfresh : getNode (setNode (insertNode d.nodes d.nextId
          { ty := ty, state := 0, parent := some (domCurrent d), children := [],
            nextChild := 0 }) (domCurrent d)
          { parent with children := parent.children ++ [d.nextId],
                        nextChild := parent.nextChild + 1 }) d.nextId =
          some { ty := ty, state := 0, parent := some (domCurrent d), children := [],
                 nextChild := 0 } := by
        rw [getNode_setNode_ne _ (domCurrent d) d.nextId _ hpid_ne]
        exact getNode_insertNode_self _ _ _
      rw [hfresh] at hbeg
      dsimp only at hbeg
      have h2 := Option.some.inj hbeg
      injection h2 with h3 h4
      rw [← h3]
      exact wf_set_same_links hwf₂ hfresh rfl rfl

/-- `end_widget` preserves the node invariant. -/
theorem end_preserves_wf {d : Dom} {id : Nat} {d' : Dom} (hwf : WfDom d)
    (hend : endWidget d id = some d') : WfDom d' := by
  unfold endWidget at hend
  cases hstack : d.stack with
  | nil =>
    rw [hstack] at hend
    exact Option.noConfusion hend
  | cons top rest =>
    rw [hstack] at hend
    dsimp only at hend
    by_cases htop : top = id
    · rw [if_pos htop] at hend
      cases htrim : trimChildren d.nodes d.removedNodes id with
      | none =>
        rw [htrim] at hend
        exact Option.noConfusion hend
      | some pr =>
        obtain ⟨nodes', removed'⟩ := pr
        rw [htrim] at hend
        have h2 := Option.some.inj hend
        rw [← h2]
        exact trim_preserves_wf hwf htrim
    · rw [if_neg htop] at hend
      exact Option.noConfusion hend

/-- `Dom::finish` preserves the node invariant. -/
theorem finish_preserves_wf {d : Dom} {d' : Dom} (hwf : WfDom d)
    (hfin : domFinish d = some d') : WfDom d' := by
  unfold domFinish at hfin
  cases htrim : trimChildren d.nodes [] d.root with
  | none =>
    rw [htrim] at hfin
    exact Option.noConfusion hfin
  | some pr =>
    obtain ⟨nodes', removed'⟩ := pr
    rw [htrim] at hfin
    have h2 := Option.some.inj hfin
    rw [← h2]
    exact trim_preserves_wf hwf htrim

/-! ### Concrete reconciliation scenario

Frame one declares `root → [A : Foo, B : Bar → [D : Qux]]`; frame two declares
`root → [A : Foo, C : Baz]` at the same positions.  Type codes: Foo = 1,
Bar = 2, Baz = 3, Qux = 4.  The update routines bump the state so that reuse
(state evolves) is distinguishable from recreation (state restarts at the
default 0). -/

/-- C1: the claim asserts that every destroyed id appears in the removed-list
readable after the frame and that the fresh `C` node sits at B's former
position in the parent's child list.  Both fail: `Dom::finish` clears the
removed list before trimming (only root-level trims survive it), so the list
is empty although B (id 2) and its child D (id 3) were destroyed; and
`begin_widget`'s mismatch path appends the new node after the already-advanced
cursor, so position 1 still holds B's dangling id while C (id 4) sits at
position 2. -/
theorem c1_counterexample :
    ((frame domNew sFooBar).bind (fun d => frame d sFooBaz)) = some c1Dom₂
    ∧ getNode c1Dom₂.nodes 2 = none
    ∧ getNode c1Dom₂.nodes 3 = none
    ∧ c1Dom₂.removedNodes = []
    ∧ (getNode c1Dom₂.nodes 0).map DomNode.children = some [1, 2, 4] := by
  refine ⟨by decide, by decide, by decide, by decide, by decide⟩

/-- C1 (amended): A is reused in place with its id and state preserved; B's
subtree is destroyed from the arena and its ids are recorded in the
removed-list at removal time, but `Dom::finish` clears that list, so it is
empty after the frame; the fresh C node (default state, then updated) is
appended after B's stale entry, which remains dangling in the parent's child
list. -/
theorem c1_amended :
    frame domNew sFooBar = some c1Dom₁
    ∧ (getNode c1Dom₁.nodes 1).map DomNode.state = some 1
    ∧ ((frame domNew sFooBar).bind (fun d => frame d sFooBaz)) = some c1Dom₂
    ∧ (getNode c1Dom₂.nodes 1).map DomNode.state = some 2
    ∧ getNode c1Dom₂.nodes 2 = none
    ∧ getNode c1Dom₂.nodes 3 = none
    ∧ (((frame domNew sFooBar).bind domStart).bind
        (fun d => exec d [Instr.begin 1 updBump, Instr.stop, Instr.begin 3 updBaz])).map
        Dom.removedNodes = some [2, 3]
    ∧ c1Dom₂.removedNodes = []
    ∧ (getNode c1Dom₂.nodes 0).map DomNode.children = some [1, 2, 4]
    ∧ (getNode c1Dom₂.nodes 4).map DomNode.state = some 10 := by
  refine ⟨by decide, by decide, by decide, by decide, by decide, by decide, by decide,
    by decide, by decide, by decide⟩

/-! ### C2: the node invariant across Dom operations -/

/-- C2: the claim fails on `begin_widget`'s type-mismatch path.  Starting from
a well-formed DOM, declaring Baz over the slot holding Bar destroys Bar's
subtree from the arena but leaves its id 2 dangling in the root's children
list, violating the no-dangling-ids invariant. -/
theorem c2_counterexample :
    WfDom dMid
    ∧ beginWidget dMid 3 updBaz = some (dBad, 4)
    ∧ ¬ WfDom dBad :=
  ⟨by decide, by decide, by decide⟩

/-- C2 (amended): `end_widget` and `finish` preserve the node invariant, and
`begin_widget` preserves it whenever the slot it reconciles is empty or holds
a child of the declared concrete type; the type-mismatch path violates the
invariant by leaving the destroyed child's id dangling in the parent's
children list. -/
theorem c2_amended :
    (∀ (d : Dom) (ty : Nat) (upd : Nat → Nat) (d' : Dom) (id : Nat),
      WfDom d → slotCompatible d ty →
      beginWidget d ty upd = some (d', id) → WfDom d')
    ∧ (∀ (d : Dom) (id : Nat) (d' : Dom), WfDom d → endWidget d id = some d' → WfDom d')
    ∧ (∀ (d d' : Dom), WfDom d → domFinish d = some d' → WfDom d') :=
  ⟨fun _ _ _ _ _ hwf hsc hbeg => begin_preserves_wf hwf hsc hbeg,
   fun _ _ _ hwf hend => end_preserves_wf hwf hend,
   fun _ _ hwf hfin => finish_preserves_wf hwf hfin⟩

/-- C2 witness: the three amended clauses applied to concrete operations. -/
theorem c2_amended_witness : WfDom dB2 ∧ WfDom c7Dom' ∧ WfDom dFin :=
  ⟨c2_amended.1 dMid 2 updBump dB2 2 (by decide) (by decide) (by decide),
   c2_amended.2.1 c7Dom 0 c7Dom' (by decide) (by decide),
   c2_amended.2.2 dMid dFin (by decide) (by decide)⟩

/-- C8: the claim fails as stated.  Frames two and three declare the identical
one-widget tree `[Bar]`; frame two (after a frame that declared `[Foo]`)
succeeds via a type-mismatch replacement which leaves Foo's id dangling in the
root's child list, and frame three then panics instead of being a no-op. -/
theorem c8_counterexample :
    (frame domNew sFooOnly).isSome = true
    ∧ ((frame domNew sFooOnly).bind (fun d => frame d sBarOnly)).isSome = true
    ∧ (((frame domNew sFooOnly).bind (fun d => frame d sBarOnly)).bind
        (fun d => frame d sBarOnly)) = none :=
  ⟨by decide, by decide, by decide⟩

/-- C8 witness: re-declaring the identical script over `dConst` is the
identity frame. -/
theorem c8_idempotent_witness : frame dConst sConst = some dConst :=
  c8_idempotent (fun i => i) dConst sConst
    { ty := 0, state := 0, parent := none, children := [1], nextChild := 1 }
    (by decide) (by decide) (by decide) (by decide) (by decide) (by decide)

/-! ### C3: dangling child slots panic on the next frame -/

/-- A dangling id anywhere in the worklist makes the trim loop panic. -/
theorem trimLoopF_dangling : ∀ (fuel : Nat) (nodes : Arena) (removed queue : List Nat)
    (c : Nat), c ∈ queue → getNode nodes c = none →
    trimLoopF fuel nodes removed queue = none := by
  intro fuel
  induction fuel with
  | zero =>
    intro nodes removed queue c hc _
    cases queue with
    | nil => simp at hc
    | cons q qs => simp [trimLoopF]
  | succ fuel ih =>
    intro nodes removed queue c hc hnone
    cases queue with
    | nil => simp at hc
    | cons q qs =>
      rcases List.mem_cons.mp hc with hq | hqs
      · subst hq
        simp [trimLoopF, hnone]
      · cases hget : getNode nodes q with
        | none => simp [trimLoopF, hget]
        | some child =>
          have hcq : q ≠ c := by
            intro h
            rw [h, hnone] at hget
            exact Option.noConfusion hget
          simp [trimLoopF, hget]
          exact ih _ _ _ c (List.mem_append_left _ hqs)
            ((getNode_removeNode_ne nodes q c hcq).trans hnone)

/-- C3: after a type-mismatch replacement the destroyed child's id stays in the
parent's child list (the new node is written past the already-advanced cursor),
and any later frame that reconciles or trims that slot panics on the `unwrap`
of the missing arena entry.  Concretely: after the two frames of the scenario,
B's id 2 is dangling at position 1; re-declaring the same two widgets panics in
`begin_widget`, and declaring only the first widget panics in `finish`'s trim.
In general, `begin_widget` panics whenever the slot at the parent's cursor
holds a dangling id, and `trim_children` panics whenever its stale slice
contains one. -/
theorem c3_dangling_replacement :
    (((frame domNew sFooBar).bind (fun d => frame d sFooBaz)) = some c1Dom₂
      ∧ getNode c1Dom₂.nodes 2 = none
      ∧ (getNode c1Dom₂.nodes 0).map DomNode.children = some [1, 2, 4]
      ∧ frame c1Dom₂ sFooBaz = none
      ∧ frame c1Dom₂ sFooOnly = none)
    ∧ (∀ (d : Dom) (ty : Nat) (upd : Nat → Nat) (p : DomNode) (cid : Nat),
        getNode d.nodes (domCurrent d) = some p →
        p.children.get? p.nextChild = some cid →
        getNode d.nodes cid = none →
        beginWidget d ty upd = none)
    ∧ (∀ (nodes : Arena) (removed : List Nat) (id : Nat) (n : DomNode) (c : Nat),
        getNode nodes id = some n →
        c ∈ n.children.drop n.nextChild →
        getNode nodes c = none →
        trimChildren nodes removed id = none) := by
  refine ⟨⟨by decide, by decide, by decide, by decide, by decide⟩, ?_, ?_⟩
  · intro d ty upd p cid hp hslot hdangling
    have hne : domCurrent d ≠ cid := by
      intro h
      rw [h, hdangling] at hp
      exact Option.noConfusion hp
    have h₀ : getNode (setNode d.nodes (domCurrent d)
        { p with nextChild := p.nextChild + 1 }) cid = none :=
      (getNode_setNode_ne d.nodes (domCurrent d) cid _ hne).trans hdangling
    simp only [beginWidget, hp, hslot, h₀]
  · intro nodes removed id n c hn hc hdangling
    have hlt : n.nextChild < n.children.length := by
      by_contra hge
      rw [List.drop_eq_nil_of_le (Nat.le_of_not_lt hge)] at hc
      simp at hc
    have hne : id ≠ c := by
      intro h
      rw [h, hdangling] at hn
      exact Option.noConfusion hn
    have h₀ : getNode (setNode nodes id
        { n with children := n.children.take n.nextChild }) c = none :=
      (getNode_setNode_ne nodes id c _ hne).trans hdangling
    simp only [trimChildren, hn, if_pos hlt]
    exact trimLoopF_dangling _ _ _ _ c hc h₀

/-- C3 witness: the general panic clauses applied to the concrete poisoned DOM
of the scenario. -/
theorem c3_dangling_replacement_witness :
    beginWidget { c1Dom₂ with nodes := setNode c1Dom₂.nodes 0 c3Root1 } 3 updBaz = none
    ∧ trimChildren (setNode c1Dom₂.nodes 0 c3Root1) [] 0 = none := by
  constructor
  · exact c3_dangling_replacement.2.1 _ 3 updBaz c3Root1 2
      (by decide) (by decide) (by decide)
  · exact c3_dangling_replacement.2.2 _ [] 0 c3Root1 2
      (by decide) (by decide) (by decide)

/-! ## Input state machine

Embedding of `crates/yakui-core/src/input/input_state.rs`.  Positions are
exact integer pairs (`f32` coordinates abstracted; no claim depends on
numeric values).  A widget's event routine (leaf code outside the core) is an
abstract function from id and event to a response; `fire_event`'s push/pop of
the traversal stack around the call nets to the identity and is not modelled.
Delivered events are collected in a log, in delivery order. -/

theorem getButton_setButton_self : ∀ (l : List (Nat × ButtonState)) (b : Nat)
    (s : ButtonState), getButton (setButton l b s) b = s := by
  intro l b s
  induction l with
  | nil => simp [setButton, getButton]
  | cons p rest ih =>
    obtain ⟨k, v⟩ := p
    by_cases hkb : k = b
    · simp [setButton, hkb, getButton]
    · simp [setButton, hkb, getButton, ih]

theorem getButton_settleButtons : ∀ (l : List (Nat × ButtonState)) (b : Nat),
    getButton (settleButtons l) b = (getButton l b).settle := by
  intro l b
  induction l with
  | nil => simp [settleButtons, getButton, ButtonState.settle]
  | cons p rest ih =>
    obtain ⟨k, v⟩ := p
    show getButton ((k, v.settle) :: settleButtons rest) b
      = (getButton ((k, v) :: rest) b).settle
    by_cases hkb : k = b
    · simp [getButton, hkb]
    · simp [getButton, hkb, ih]

/-- C9: the per-button state machine is driven only by raw down/up edges: an
event matching the current `is_down` changes nothing (also at the button-map
level), up-while-down yields exactly `JustUp`, `finish` settles `JustUp` to
`Up` and `JustDown` to `Down`, and `is_down` holds exactly for `JustDown` and
`Down`. -/
theorem c9_button_edges :
    (∀ (s : ButtonState) (down : Bool), s.isDown = down → buttonTransition s down = s)
    ∧ (∀ s : ButtonState, s.isDown = true → buttonTransition s false = ButtonState.JustUp)
    ∧ ButtonState.settle ButtonState.JustUp = ButtonState.Up
    ∧ ButtonState.settle ButtonState.JustDown = ButtonState.Down
    ∧ (∀ s : ButtonState, s.isDown = true ↔ (s = ButtonState.JustDown ∨ s = ButtonState.Down))
    ∧ (∀ (l : List (Nat × ButtonState)) (b : Nat) (down : Bool),
        (getButton l b).isDown = down →
        getButton (mouseButtonChangedState l b down) b = getButton l b)
    ∧ (∀ (l : List (Nat × ButtonState)) (b : Nat),
        (getButton l b).isDown = true →
        getButton (mouseButtonChangedState l b false) b = ButtonState.JustUp
        ∧ getButton (settleButtons (mouseButtonChangedState l b false)) b
            = ButtonState.Up) := by
  refine ⟨?_, ?_, by decide, by decide, ?_, ?_, ?_⟩
  · intro s down
    cases s <;> cases down <;> decide
  · intro s
    cases s <;> decide
  · intro s
    cases s <;> decide
  · intro l b down h
    unfold mouseButtonChangedState
    rw [getButton_setButton_self]
    revert h
    cases getButton l b <;> cases down <;> decide
  · intro l b h
    have h₁ : getButton (mouseButtonChangedState l b false) b = ButtonState.JustUp := by
      unfold mouseButtonChangedState
      rw [getButton_setButton_self]
      revert h
      cases getButton l b <;> decide
    refine ⟨h₁, ?_⟩
    rw [getButton_settleButtons, h₁]
    rfl

/-- C9 witness: the map-level clauses at a concrete button map. -/
theorem c9_button_edges_witness :
    getButton (mouseButtonChangedState [(0, ButtonState.Down)] 0 true) 0 = ButtonState.Down
    ∧ getButton (mouseButtonChangedState [(0, ButtonState.Down)] 0 false) 0
        = ButtonState.JustUp
    ∧ getButton (settleButtons (mouseButtonChangedState [(0, ButtonState.Down)] 0 false)) 0
        = ButtonState.Up :=
  ⟨c9_button_edges.2.2.2.2.2.1 [(0, ButtonState.Down)] 0 true (by decide),
   (c9_button_edges.2.2.2.2.2.2 [(0, ButtonState.Down)] 0 (by decide)).1,
   (c9_button_edges.2.2.2.2.2.2 [(0, ButtonState.Down)] 0 (by decide)).2⟩

/-! ### C4: focus-change notification -/

/-- C4: the claim's non-fatal-skip part fails.  With the previous selection
pointing at an id absent from the DOM (as after that widget's removal),
`notify_selection` hits `dom.get_mut(left).unwrap()` and panics (modelled as
`none`) instead of skipping the notification. -/
theorem c4_counterexample :
    notifySelection c1Dom₁ hBubble
      { inputNew with selection := some 1, lastSelection := some 9 } = none :=
  by decide

/-- C4 (amended): when the selection changed and both the new and the previous
selections are absent or still in the tree, `FocusChanged(true)` is delivered
to the new selection before `FocusChanged(false)` to the previous one and the
previous-frame selection is committed; but when the previous selection has
been removed from the tree (second clause), or the new selection has been
removed from the tree (third clause, no condition on the previous one),
`notify_selection` panics on its `unwrap` instead of skipping the
notification. -/
theorem c4_amended :
    (∀ (dom : Dom) (h : Handler) (inp : MInput),
      inp.selection ≠ inp.lastSelection →
      optAliveB dom inp.selection = true →
      optAliveB dom inp.lastSelection = true →
      notifySelection dom h inp =
        some ({ inp with lastSelection := inp.selection },
          focusLog inp.selection inp.lastSelection))
    ∧ (∀ (dom : Dom) (h : Handler) (inp : MInput) (i : Nat),
      inp.selection ≠ inp.lastSelection →
      optAliveB dom inp.selection = true →
      inp.lastSelection = some i →
      getNode dom.nodes i = none →
      notifySelection dom h inp = none)
    ∧ (∀ (dom : Dom) (h : Handler) (inp : MInput) (i : Nat),
      inp.selection ≠ inp.lastSelection →
      inp.selection = some i →
      getNode dom.nodes i = none →
      notifySelection dom h inp = none) := by
  refine ⟨?_, ?_, ?_⟩
  · intro dom h inp hne hcur hlast
    unfold notifySelection
    rw [if_neg hne]
    cases hsel : inp.selection with
    | some y =>
      rw [hsel] at hcur
      dsimp only
      obtain ⟨n, hn⟩ := Option.isSome_iff_exists.mp hcur
      rw [hn]
      dsimp only
      cases hlastv : inp.lastSelection with
      | some x =>
        rw [hlastv] at hlast
        dsimp only
        obtain ⟨m, hm⟩ := Option.isSome_iff_exists.mp hlast
        rw [hm]
        rfl
      | none => rfl
    | none =>
      dsimp only
      cases hlastv : inp.lastSelection with
      | some x =>
        rw [hlastv] at hlast
        dsimp only
        obtain ⟨m, hm⟩ := Option.isSome_iff_exists.mp hlast
        rw [hm]
        rfl
      | none => exact absurd (hsel.trans hlastv.symm) hne
  · intro dom h inp i hne hcur hlastv hnone
    unfold notifySelection
    rw [if_neg hne]
    cases hsel : inp.selection with
    | some y =>
      rw [hsel] at hcur
      dsimp only
      obtain ⟨n, hn⟩ := Option.isSome_iff_exists.mp hcur
      rw [hn]
      dsimp only
      rw [hlastv]
      dsimp only
      rw [hnone]
    | none =>
      dsimp only
      rw [hlastv]
      dsimp only
      rw [hnone]
  · intro dom h inp i hne hselv hnone
    unfold notifySelection
    rw [if_neg hne, hselv]
    dsimp only
    rw [hnone]

/-- C4 witness: a concrete selection change from widget 2 to widget 1 in the
frame-one DOM delivers gain before loss; a removed previous selection panics;
and a removed new selection panics too. -/
theorem c4_amended_witness :
    notifySelection c1Dom₁ hBubble
      { inputNew with selection := some 1, lastSelection := some 2 } =
      some ({ inputNew with selection := some 1, lastSelection := some 1 },
        [(1, MEvent.FocusChanged true), (2, MEvent.FocusChanged false)])
    ∧ notifySelection c1Dom₁ hBubble
      { inputNew with selection := none, lastSelection := some 9 } = none
    ∧ notifySelection c1Dom₁ hBubble
      { inputNew with selection := some 9, lastSelection := some 1 } = none :=
  ⟨c4_amended.1 c1Dom₁ hBubble
      { inputNew with selection := some 1, lastSelection := some 2 }
      (by decide) (by decide) (by decide),
   c4_amended.2.1 c1Dom₁ hBubble
      { inputNew with selection := none, lastSelection := some 9 } 9
      (by decide) (by decide) (by decide) (by decide),
   c4_amended.2.2 c1Dom₁ hBubble
      { inputNew with selection := some 9, lastSelection := some 1 } 9
      (by decide) (by decide) (by decide)⟩

/-! ### C6: purging input state for destroyed widgets -/

/-- C6: the claim fails.  Widget 2 is destroyed during the frame (pruned by
`end_widget`), but `Dom::finish` clears the removed-list before trimming only
the root, so the list readable at the frame boundary is empty and the purge
pass (modelled from the spec) cannot see the destroyed id: the selection and
the entered sets still reference it. -/
theorem c6_counterexample :
    ((frame domNew sNest).bind (fun d => frame d sFooOnly)) = some dTrim
    ∧ getNode dTrim.nodes 2 = none
    ∧ dTrim.removedNodes = []
    ∧ (purgeRemoved dTrim c6Inp).selection = some 2
    ∧ 2 ∈ (purgeRemoved dTrim c6Inp).mouseEntered
    ∧ 2 ∈ (purgeRemoved dTrim c6Inp).mouseEnteredAndSunk :=
  ⟨by decide, by decide, by decide, by decide, by decide, by decide⟩

/-- C6 (amended): the frame-boundary purge clears exactly the ids present in
the removed-list after `finish` (the root-level trims): for every id in that
list, the selection no longer references it and it is dropped from both
entered sets; ids destroyed mid-frame are missing from the list (`finish`
clears it first) and their InputState entries survive, as witnessed by the
concrete trim scenario. -/
theorem c6_amended :
    (∀ (d : Dom) (inp : MInput) (i : Nat), i ∈ d.removedNodes →
      (purgeRemoved d inp).selection ≠ some i
      ∧ i ∉ (purgeRemoved d inp).mouseEntered
      ∧ i ∉ (purgeRemoved d inp).mouseEnteredAndSunk)
    ∧ (getNode dTrim.nodes 2 = none
      ∧ (purgeRemoved dTrim c6Inp).selection = some 2
      ∧ 2 ∈ (purgeRemoved dTrim c6Inp).mouseEntered) := by
  constructor
  · intro d inp i hi
    have hcont : d.removedNodes.contains i = true := List.elem_eq_true_of_mem hi
    refine ⟨?_, ?_, ?_⟩
    · show (match inp.selection with
            | some j => if d.removedNodes.contains j then none else some j
            | none => none) ≠ some i
      cases hsel : inp.selection with
      | none => exact Option.noConfusion
      | some j =>
        dsimp only
        by_cases hj : d.removedNodes.contains j
        · rw [if_pos hj]
          exact Option.noConfusion
        · rw [if_neg hj]
          intro hji
          have := Option.some.inj hji
          rw [this] at hj
          exact hj hcont
    · show i ∉ inp.mouseEntered.filter (fun j => !(d.removedNodes.contains j))
      intro hmem
      have := List.of_mem_filter hmem
      rw [hcont] at this
      exact Bool.noConfusion this
    · show i ∉ inp.mouseEnteredAndSunk.filter (fun j => !(d.removedNodes.contains j))
      intro hmem
      have := List.of_mem_filter hmem
      rw [hcont] at this
      exact Bool.noConfusion this
  · exact ⟨by decide, by decide, by decide⟩

/-- C6 witness: the purge clause at the DOM whose finish trimmed ids 2 and 3
at the root level. -/
theorem c6_amended_witness :
    (purgeRemoved dFin c6Inp).selection ≠ some 2
    ∧ 2 ∉ (purgeRemoved dFin c6Inp).mouseEntered
    ∧ 2 ∉ (purgeRemoved dFin c6Inp).mouseEnteredAndSunk :=
  c6_amended.1 dFin c6Inp 2 (by decide)

/-! ### C5: the mouse-move cycle -/

theorem eplGo_noEnter : ∀ (y : Log), (∀ ev ∈ y, ev.2 ≠ MEvent.MouseEnter) →
    ∀ b, eplGo y b = true := by
  intro y
  induction y with
  | nil =>
    intro _ b
    rfl
  | cons ev rest ih =>
    intro hy b
    obtain ⟨id, e⟩ := ev
    have hrest : ∀ ev ∈ rest, ev.2 ≠ MEvent.MouseEnter :=
      fun ev hev => hy ev (List.mem_cons_of_mem _ hev)
    cases e with
    | MouseEnter => exact absurd rfl (hy (id, MEvent.MouseEnter) (List.mem_cons_self _ _))
    | MouseLeave => exact ih hrest true
    | MouseMoved p => exact ih hrest b
    | FocusChanged f => exact ih hrest b
    | MouseButtonChanged a c d p m => exact ih hrest b
    | MouseScroll p => exact ih hrest b
    | KeyChanged k c m => exact ih hrest b
    | TextInput c => exact ih hrest b

theorem eplGo_append_noLeave : ∀ (x y : Log), (∀ ev ∈ x, ev.2 ≠ MEvent.MouseLeave) →
    eplGo (x ++ y) false = eplGo y false := by
  intro x
  induction x with
  | nil =>
    intro y _
    rfl
  | cons ev rest ih =>
    intro y hx
    obtain ⟨id, e⟩ := ev
    have hrest : ∀ ev ∈ rest, ev.2 ≠ MEvent.MouseLeave :=
      fun ev hev => hx ev (List.mem_cons_of_mem _ hev)
    cases e with
    | MouseLeave => exact absurd rfl (hx (id, MEvent.MouseLeave) (List.mem_cons_self _ _))
    | MouseEnter =>
      show eplGo (rest ++ y) false = eplGo y false
      exact ih y hrest
    | MouseMoved p => exact ih y hrest
    | FocusChanged f => exact ih y hrest
    | MouseButtonChanged a c d p m => exact ih y hrest
    | MouseScroll p => exact ih y hrest
    | KeyChanged k c m => exact ih y hrest
    | TextInput c => exact ih y hrest

theorem sendMouseMoveLoop_spec (dom : Dom) (pos : Option V2) :
    ∀ (l : List (Nat × Nat)) (log : Log) (lg : Log),
    sendMouseMoveLoop dom pos l log = some lg →
    ∀ ev ∈ lg, ev ∈ log ∨ ∃ p, ev.2 = MEvent.MouseMoved p := by
  intro l
  induction l with
  | nil =>
    intro log lg heq ev hev
    obtain rfl : log = lg := Option.some.inj heq
    exact Or.inl hev
  | cons q rest ih =>
    intro log lg heq ev hev
    obtain ⟨id, interest⟩ := q
    by_cases hint : interestIntersects interest MOUSE_MOVE = true
    · rw [show sendMouseMoveLoop dom pos ((id, interest) :: rest) log =
          (if interestIntersects interest MOUSE_MOVE then
            match getNode dom.nodes id with
            | none => none
            | some _ =>
              sendMouseMoveLoop dom pos rest (log ++ [(id, MEvent.MouseMoved pos)])
           else sendMouseMoveLoop dom pos rest log) from rfl, if_pos hint] at heq
      cases hget : getNode dom.nodes id with
      | none =>
        rw [hget] at heq
        exact Option.noConfusion heq
      | some n =>
        rw [hget] at heq
        dsimp only at heq
        rcases ih _ _ heq ev hev with h | h
        · rcases List.mem_append.mp h with h' | h'
          · exact Or.inl h'
          · have : ev = (id, MEvent.MouseMoved pos) := List.mem_singleton.mp h'
            exact Or.inr ⟨pos, by rw [this]⟩
        · exact Or.inr h
    · rw [show sendMouseMoveLoop dom pos ((id, interest) :: rest) log =
          (if interestIntersects interest MOUSE_MOVE then
            match getNode dom.nodes id with
            | none => none
            | some _ =>
              sendMouseMoveLoop dom pos rest (log ++ [(id, MEvent.MouseMoved pos)])
           else sendMouseMoveLoop dom pos rest log) from rfl,
          if_neg hint] at heq
      exact ih _ _ heq ev hev

theorem mouseHitTest_fields {layout : MLayout} {i i₂ : MInput}
    (h : mouseHitTest layout i = some i₂) :
    i₂.mouseEntered = i.mouseEntered ∧ i₂.mouseEnteredAndSunk = i.mouseEnteredAndSunk := by
  unfold mouseHitTest at h
  cases hpos : i.mousePosition with
  | none =>
    rw [hpos] at h
    obtain rfl := Option.some.inj h
    exact ⟨rfl, rfl⟩
  | some pos =>
    rw [hpos] at h
    dsimp only at h
    cases hht : hitTest layout (scaleDiv pos layout.scaleFactor) with
    | none =>
      rw [hht] at h
      exact Option.noConfusion h
    | some hits =>
      rw [hht] at h
      obtain rfl := Option.some.inj h
      exact ⟨rfl, rfl⟩

theorem enterLoop_spec (dom : Dom) (h : Handler) :
    ∀ (hits entered sunk : List Nat) (log : Log) (eOut sOut : List Nat) (lg : Log),
    enterLoop dom h hits entered sunk log = (eOut, sOut, lg) →
    (∀ x ∈ eOut, x ∈ entered ∨ x ∈ hits)
    ∧ (∀ x ∈ entered, x ∈ eOut)
    ∧ ((∀ x ∈ sunk, x ∈ entered) → ∀ x ∈ sOut, x ∈ eOut)
    ∧ (∀ ev ∈ lg, ev ∈ log ∨ ev.2 = MEvent.MouseEnter) := by
  intro hits
  induction hits with
  | nil =>
    intro entered sunk log eOut sOut lg heq
    injection heq with h1 heq'
    injection heq' with h2 h3
    subst h1
    subst h2
    subst h3
    exact ⟨fun x hx => Or.inl hx, fun x hx => hx, fun hsub x hx => hsub x hx,
      fun ev hev => Or.inl hev⟩
  | cons hit rest ih =>
    intro entered sunk log eOut sOut lg heq
    rw [show enterLoop dom h (hit :: rest) entered sunk log =
        (match getNode dom.nodes hit with
         | none => enterLoop dom h rest entered sunk log
         | some _ =>
           if entered.contains hit then
             if sunk.contains hit then (entered, sunk, log)
             else enterLoop dom h rest entered sunk log
           else
             let entered₁ := entered ++ [hit]
             let log₁ := log ++ [(hit, MEvent.MouseEnter)]
             if h hit MEvent.MouseEnter = MResponse.Sink then
               (entered₁, sunk ++ [hit], log₁)
             else enterLoop dom h rest entered₁ sunk log₁) from rfl] at heq
    cases hget : getNode dom.nodes hit with
    | none =>
      rw [hget] at heq
      obtain ⟨h1, h2, h3, h4⟩ := ih entered sunk log eOut sOut lg heq
      exact ⟨fun x hx => (h1 x hx).imp id (List.mem_cons_of_mem _), h2, h3, h4⟩
    | some n =>
      rw [hget] at heq
      dsimp only at heq
      by_cases hcont : entered.contains hit
      · rw [if_pos hcont] at heq
        by_cases hsunk : sunk.contains hit
        · rw [if_pos hsunk] at heq
          injection heq with h1 heq'
          injection heq' with h2 h3
          subst h1
          subst h2
          subst h3
          exact ⟨fun x hx => Or.inl hx, fun x hx => hx, fun hsub x hx => hsub x hx,
            fun ev hev => Or.inl hev⟩
        · rw [if_neg hsunk] at heq
          obtain ⟨h1, h2, h3, h4⟩ := ih entered sunk log eOut sOut lg heq
          exact ⟨fun x hx => (h1 x hx).imp id (List.mem_cons_of_mem _), h2, h3, h4⟩
      · rw [if_neg hcont] at heq
        by_cases hsink : h hit MEvent.MouseEnter = MResponse.Sink
        · rw [if_pos hsink] at heq
          injection heq with h1 heq'
          injection heq' with h2 h3
          subst h1
          subst h2
          subst h3
          refine ⟨?_, ?_, ?_, ?_⟩
          · intro x hx
            rcases List.mem_append.mp hx with h' | h'
            · exact Or.inl h'
            · exact Or.inr ((List.mem_singleton.mp h') ▸ List.mem_cons_self _ _)
          · intro x hx
            exact List.mem_append_left _ hx
          · intro hsub x hx
            rcases List.mem_append.mp hx with h' | h'
            · exact List.mem_append_left _ (hsub x h')
            · exact List.mem_append_right _ h'
          · intro ev hev
            rcases List.mem_append.mp hev with h' | h'
            · exact Or.inl h'
            · exact Or.inr (by rw [List.mem_singleton.mp h'])
        · rw [if_neg hsink] at heq
          obtain ⟨h1, h2, h3, h4⟩ :=
            ih (entered ++ [hit]) sunk (log ++ [(hit, MEvent.MouseEnter)]) eOut sOut lg heq
          refine ⟨?_, ?_, ?_, ?_⟩
          · intro x hx
            rcases h1 x hx with h' | h'
            · rcases List.mem_append.mp h' with h'' | h''
              · exact Or.inl h''
              · exact Or.inr ((List.mem_singleton.mp h'') ▸ List.mem_cons_self _ _)
            · exact Or.inr (List.mem_cons_of_mem _ h')
          · intro x hx
            exact h2 x (List.mem_append_left _ hx)
          · intro hsub x hx
            exact h3 (fun y hy => List.mem_append_left _ (hsub y hy)) x hx
          · intro ev hev
            rcases h4 ev hev with h' | h'
            · rcases List.mem_append.mp h' with h'' | h''
              · exact Or.inl h''
              · exact Or.inr (by rw [List.mem_singleton.mp h''])
            · exact Or.inr h'

theorem leaveCollect_spec (dom : Dom) (mouseHit : List Nat) :
    ∀ (entered : List Nat) (log : Log) (toRemove : List Nat) (lg : Log),
    leaveCollect dom mouseHit entered log = (toRemove, lg) →
    (∀ x, x ∈ toRemove ↔ (x ∈ entered ∧ ¬ x ∈ mouseHit))
    ∧ (∀ ev ∈ lg, ev ∈ log ∨ ev.2 = MEvent.MouseLeave) := by
  intro entered
  induction entered with
  | nil =>
    intro log toRemove lg heq
    injection heq with h1 h2
    subst h1
    subst h2
    exact ⟨fun x => ⟨fun hx => absurd hx (List.not_mem_nil x),
      fun hx => absurd hx.1 (List.not_mem_nil x)⟩, fun ev hev => Or.inl hev⟩
  | cons e rest ih =>
    intro log toRemove lg heq
    rw [show leaveCollect dom mouseHit (e :: rest) log =
        (if mouseHit.contains e then leaveCollect dom mouseHit rest log
         else
           let log₁ :=
             match getNode dom.nodes e with
             | none => log
             | some _ => log ++ [(e, MEvent.MouseLeave)]
           match leaveCollect dom mouseHit rest log₁ with
           | (toRemove, log₂) => (e :: toRemove, log₂)) from rfl] at heq
    by_cases hcont : mouseHit.contains e
    · rw [if_pos hcont] at heq
      obtain ⟨h1, h2⟩ := ih log toRemove lg heq
      have hememb : e ∈ mouseHit := List.mem_of_elem_eq_true hcont
      refine ⟨?_, h2⟩
      intro x
      rw [h1 x]
      constructor
      · intro ⟨hx1, hx2⟩
        exact ⟨List.mem_cons_of_mem _ hx1, hx2⟩
      · intro ⟨hx1, hx2⟩
        rcases List.mem_cons.mp hx1 with h' | h'
        · exact absurd (h' ▸ hememb) hx2
        · exact ⟨h', hx2⟩
    · rw [if_neg hcont] at heq
      dsimp only at heq
      have hnotmem : e ∉ mouseHit := by
        intro hmem
        exact hcont (List.elem_eq_true_of_mem hmem)
      cases hrec : leaveCollect dom mouseHit rest
          (match getNode dom.nodes e with
           | none => log
           | some _ => log ++ [(e, MEvent.MouseLeave)]) with
      | mk toRemove₁ log₂ =>
        rw [hrec] at heq
        injection heq with h1 h2
        subst h1
        subst h2
        obtain ⟨h1, h2⟩ := ih _ toRemove₁ log₂ hrec
        refine ⟨?_, ?_⟩
        · intro x
          constructor
          · intro hx
            rcases List.mem_cons.mp hx with h' | h'
            · exact ⟨h' ▸ List.mem_cons_self _ _, h' ▸ hnotmem⟩
            · obtain ⟨hx1, hx2⟩ := (h1 x).mp h'
              exact ⟨List.mem_cons_of_mem _ hx1, hx2⟩
          · intro ⟨hx1, hx2⟩
            rcases List.mem_cons.mp hx1 with h' | h'
            · exact h' ▸ List.mem_cons_self _ _
            · exact List.mem_cons_of_mem _ ((h1 x).mpr ⟨h', hx2⟩)
        · intro ev hev
          rcases h2 ev hev with h' | h'
          · cases hget : getNode dom.nodes e with
            | none =>
              rw [hget] at h'
              exact Or.inl h'
            | some n =>
              rw [hget] at h'
              rcases List.mem_append.mp h' with h'' | h''
              · exact Or.inl h''
              · exact Or.inr (by rw [List.mem_singleton.mp h''])
          · exact Or.inr h'

theorem mem_retainAll : ∀ (rs l : List Nat) (x : Nat),
    x ∈ retainAll l rs ↔ (x ∈ l ∧ x ∉ rs) := by
  intro rs
  induction rs with
  | nil =>
    intro l x
    exact ⟨fun hx => ⟨hx, List.not_mem_nil x⟩, fun hx => hx.1⟩
  | cons r rs ih =>
    intro l x
    show x ∈ retainAll (l.filter (fun y => y != r)) rs ↔ _
    rw [ih]
    constructor
    · intro ⟨hx1, hx2⟩
      have := List.mem_filter.mp hx1
      refine ⟨this.1, ?_⟩
      intro hmem
      rcases List.mem_cons.mp hmem with h' | h'
      · have := this.2
        rw [h'] at this
        simp at this
      · exact hx2 h'
    · intro ⟨hx1, hx2⟩
      have hxr : x ≠ r := fun h => hx2 (h ▸ List.mem_cons_self _ _)
      refine ⟨List.mem_filter.mpr ⟨hx1, by simpa using hxr⟩, ?_⟩
      intro hmem
      exact hx2 (List.mem_cons_of_mem _ hmem)

/-- C5 (amended): at the end of every mouse-move cycle the inclusions
entered-and-sunk ⊆ entered ⊆ current hit-test result hold (given they linked
sunk to entered before the cycle), but within the cycle the new `MouseEnter`
deliveries are processed before the `MouseLeave` removals (`send_mouse_enter`
runs before `send_mouse_leave`), not the other way around. -/
theorem c5_cycle :
    ∀ (dom : Dom) (layout : MLayout) (h : Handler) (inp : MInput) (pos : Option V2)
      (inp' : MInput) (log : Log),
    mouseMoved dom layout h inp pos = some (inp', log) →
    (∀ x ∈ inp.mouseEnteredAndSunk, x ∈ inp.mouseEntered) →
    (∀ x ∈ inp'.mouseEnteredAndSunk, x ∈ inp'.mouseEntered)
    ∧ (∀ x ∈ inp'.mouseEntered, x ∈ inp'.mouseHit)
    ∧ entersPrecedeLeaves log = true := by
  intro dom layout h inp pos inp' log hm hsub
  unfold mouseMoved at hm
  dsimp only at hm
  cases hmv : sendMouseMove dom layout
      { inp with mousePosition := pos.map (fun p => vsub p layout.viewportPos) } with
  | none =>
    rw [hmv] at hm
    exact Option.noConfusion hm
  | some log₁ =>
    rw [hmv] at hm
    dsimp only at hm
    cases hht : mouseHitTest layout
        { inp with mousePosition := pos.map (fun p => vsub p layout.viewportPos) } with
    | none =>
      rw [hht] at hm
      exact Option.noConfusion hm
    | some inp₂ =>
      rw [hht] at hm
      dsimp only at hm
      obtain ⟨hent₂, hsunk₂⟩ := mouseHitTest_fields hht
      cases henter : enterLoop dom h inp₂.mouseHit inp₂.mouseEntered
          inp₂.mouseEnteredAndSunk [] with
      | mk eOut rest₁ =>
        obtain ⟨sOut, log₂⟩ := rest₁
        have hse : sendMouseEnter dom h inp₂ =
            ({ inp₂ with mouseEntered := eOut, mouseEnteredAndSunk := sOut }, log₂) := by
          unfold sendMouseEnter
          rw [henter]
        rw [hse] at hm
        dsimp only at hm
        cases hleave : leaveCollect dom inp₂.mouseHit eOut [] with
        | mk toRemove log₃ =>
          have hsl : sendMouseLeave dom
              { inp₂ with mouseEntered := eOut, mouseEnteredAndSunk := sOut } =
              ({ inp₂ with
                   mouseEntered := retainAll eOut toRemove,
                   mouseEnteredAndSunk := retainAll sOut toRemove }, log₃) := by
            unfold sendMouseLeave
            dsimp only
            rw [hleave]
          rw [hsl] at hm
          dsimp only at hm
          injection hm with h12
          injection h12 with h1 h2
          subst h2
          obtain ⟨he1, he2, he3, he4⟩ := enterLoop_spec dom h inp₂.mouseHit
            inp₂.mouseEntered inp₂.mouseEnteredAndSunk [] eOut sOut log₂ henter
          obtain ⟨hl1, hl2⟩ := leaveCollect_spec dom inp₂.mouseHit eOut [] toRemove log₃ hleave
          have hsub₂ : ∀ x ∈ inp₂.mouseEnteredAndSunk, x ∈ inp₂.mouseEntered := by
            rw [hent₂, hsunk₂]
            exact hsub
          have hinp' : inp' = { inp₂ with
              mouseEntered := retainAll eOut toRemove,
              mouseEnteredAndSunk := retainAll sOut toRemove } := h1.symm
          refine ⟨?_, ?_, ?_⟩
          · intro x hx
            rw [hinp'] at hx ⊢
            have hx' := (mem_retainAll toRemove _ x).mp hx
            refine (mem_retainAll toRemove _ x).mpr ⟨he3 hsub₂ x hx'.1, hx'.2⟩
          · intro x hx
            rw [hinp'] at hx ⊢
            have hx' := (mem_retainAll toRemove _ x).mp hx
            show x ∈ inp₂.mouseHit
            by_contra hnot
            exact hx'.2 ((hl1 x).mpr ⟨hx'.1, hnot⟩)
          · show entersPrecedeLeaves (log₁ ++ log₂ ++ log₃) = true
            unfold entersPrecedeLeaves
            rw [List.append_assoc, eplGo_append_noLeave]
            · rw [eplGo_append_noLeave, eplGo_noEnter]
              · intro ev hev
                rcases hl2 ev hev with h' | h'
                · exact absurd h' (List.not_mem_nil ev)
                · intro hEnter
                  rw [hEnter] at h'
                  exact MEvent.noConfusion h'
              · intro ev hev
                rcases he4 ev hev with h' | h'
                · exact absurd h' (List.not_mem_nil ev)
                · intro hLeave
                  rw [hLeave] at h'
                  exact MEvent.noConfusion h'
            · intro ev hev
              rcases sendMouseMoveLoop_spec dom _ _ _ _ hmv ev hev with h' | ⟨p, h'⟩
              · exact absurd h' (List.not_mem_nil ev)
              · intro hLeave
                rw [hLeave] at h'
                exact MEvent.noConfusion h'

/-- C5: the claim's ordering is wrong.  Moving the mouse from over widget 1 to
over widget 2 in one cycle delivers `MouseEnter` to 2 *before* `MouseLeave` to
1: `mouse_moved` calls `send_mouse_enter` first and `send_mouse_leave` second,
so leaves do not precede enters as claimed. -/
theorem c5_counterexample :
    (mouseMoved c1Dom₁ c5Layout hBubble c5Inp (some (5, 5))).map (fun r => r.2) =
      some [(2, MEvent.MouseEnter), (1, MEvent.MouseLeave)]
    ∧ leavesPrecedeEnters [(2, MEvent.MouseEnter), (1, MEvent.MouseLeave)] = false :=
  ⟨by decide, by decide⟩

theorem c5_cycle_witness :
    (∀ x ∈ c5Inp.mouseEnteredAndSunk, x ∈ c5Inp.mouseEntered)
    ∧ ((∀ x ∈ c5Out.mouseEnteredAndSunk, x ∈ c5Out.mouseEntered)
       ∧ (∀ x ∈ c5Out.mouseEntered, x ∈ c5Out.mouseHit)
       ∧ entersPrecedeLeaves [(2, MEvent.MouseEnter), (1, MEvent.MouseLeave)] = true) :=
  ⟨by decide,
    c5_cycle c1Dom₁ c5Layout hBubble c5Inp (some (5, 5)) c5Out
      [(2, MEvent.MouseEnter), (1, MEvent.MouseLeave)] (by decide) (by decide)⟩

end Yakui
